import Mathlib

/-!
Verification of the incremental crawl-and-cache engine of the BOSA Belgium
e-invoicing scraper: a shallow embedding of `pageCache.js`, `scraper.js`
and `supabaseStorage.js`, together with theorems settling the
specification claims about them.

Modelling conventions:
* JavaScript strings are Lean `String`s; `charCodeAt` is `Char.toNat`
  (exact on the basic multilingual plane, where all keywords live).
* ISO-8601 date strings are represented by their millisecond timestamp
  (`Int`), so `new Date(s).getTime()` is the identity.  A stored ISO
  string is never empty, hence never falsy in `meta.lastScraped || ...`.
* A JavaScript `Map` is an association list `List (String × α)` in
  insertion order with unique keys; `Map.get` is `mapGet` below.
* JavaScript numbers that can become `NaN` are modelled by `JsNum`;
  integer-valued arithmetic (timestamps, counters, the rolling hash) is
  exact in floats and is modelled by `Int`/`Nat` directly.
* `await` points are sequential in the source; the embedding is the
  corresponding sequential program.
-/

namespace BelgiumScraper

/-! ## JavaScript primitives -/

/-- Wrap an integer to a signed 32-bit value, as JavaScript's `|`, `&` and
`<<` operators do via `ToInt32`. -/
def toInt32 (n : Int) : Int :=
  let m := n.emod 4294967296
  if m < 2147483648 then m else m - 4294967296

/-- `needle` occurs as a contiguous sublist of `hay`
(JavaScript `String.prototype.includes`). -/
def listIncludes (needle : List Char) : List Char → Bool
  | [] => needle.isEmpty
  | c :: t => needle.isPrefixOf (c :: t) || listIncludes needle t

/-- JavaScript `hay.includes(needle)`. -/
def strIncludes (hay needle : String) : Bool :=
  listIncludes needle.toList hay.toList

/-- JavaScript `s.toLowerCase()` (ASCII case mapping; every keyword and
text the claims touch is closed under it). -/
def jsToLower (s : String) : String :=
  String.mk (s.toList.map Char.toLower)

/-- JavaScript `s.trim()`: strip leading and trailing whitespace. -/
def jsTrim (s : String) : String :=
  String.mk (((s.toList.dropWhile Char.isWhitespace).reverse.dropWhile
    Char.isWhitespace).reverse)

/-- JavaScript `s.startsWith(p)`. -/
def jsStartsWith (s p : String) : Bool :=
  p.toList.isPrefixOf s.toList

/-- JavaScript regex word character `\w = [A-Za-z0-9_]`. -/
def isWordChar (c : Char) : Bool :=
  c.isAlpha || c.isDigit || c == '_'

/-- A `\b` word boundary holds between two (optional) adjacent characters
iff exactly one of them is a word character; outside the string counts as
a non-word character. -/
def wordB (a b : Option Char) : Bool :=
  (match a with | none => false | some c => isWordChar c)
    != (match b with | none => false | some c => isWordChar c)

/-- `needle` matches at the start of `hay` with `\b` on both sides;
`prev` is the character immediately before this position. -/
def wholeWordAt (prev : Option Char) (needle hay : List Char) : Bool :=
  needle.isPrefixOf hay
    && wordB prev hay.head?
    && wordB needle.getLast? (hay.drop needle.length).head?

/-- Search every position of `hay` for a `\b needle \b` match. -/
def wholeWordSearch (needle : List Char) : Option Char → List Char → Bool
  | prev, [] => wholeWordAt prev needle []
  | prev, c :: t => wholeWordAt prev needle (c :: t) || wholeWordSearch needle (some c) t

/-- JavaScript `new RegExp('\\b' + escapedNeedle + '\\b').test(hay)` for a
literal `needle` (the source escapes all regex metacharacters first). -/
def wholeWordMatch (hay needle : String) : Bool :=
  wholeWordSearch needle.toList none hay.toList

/-- One token of the hand-written relevance regexes: a `\b` anchor, a
literal character, a character class, or an optional character class
(`[...]?`). -/
inductive RTok where
  | bnd
  | lit (c : Char)
  | cls (p : Char → Bool)
  | opt (p : Char → Bool)

/-- Match a token list at the current position; `prev` is the character
just before it (for `\b`). -/
def matchToks : List RTok → Option Char → List Char → Bool
  | [], _, _ => true
  | .bnd :: ts, prev, hay => wordB prev hay.head? && matchToks ts prev hay
  | .lit _ :: _, _, [] => false
  | .lit c :: ts, _, d :: hay => c == d && matchToks ts (some d) hay
  | .cls _ :: _, _, [] => false
  | .cls p :: ts, _, d :: hay => p d && matchToks ts (some d) hay
  | .opt p :: ts, prev, hay =>
    match hay with
    | d :: hay' => (p d && matchToks ts (some d) hay') || matchToks ts prev hay
    | [] => matchToks ts prev hay

/-- Search every position for a match (JavaScript `RegExp.prototype.test`). -/
def searchToks (p : List RTok) : Option Char → List Char → Bool
  | prev, [] => matchToks p prev []
  | prev, c :: t => matchToks p prev (c :: t) || searchToks p (some c) t

/-- `pattern.test(s)`. -/
def patTest (p : List RTok) (s : String) : Bool :=
  searchToks p none s.toList

/-- JavaScript `a || b` on strings: the empty string is falsy. -/
def jsOrS (a b : String) : String :=
  if a = "" then b else a

/-- JavaScript `v || null` on a nullable string: `null` and `''` are falsy. -/
def jsOrNull : Option String → Option String
  | some s => if s = "" then none else some s
  | none => none

/-- Digit characters used by `Number.prototype.toString(36)`. -/
def base36Digit (n : Nat) : Char :=
  if n < 10 then Char.ofNat (48 + n) else Char.ofNat (87 + n)

/-- Digit-extraction loop of `toString(36)`; the fuel only bounds the
digit count (`n` itself is always enough) and the zero-fuel fallback is
unreachable for positive fuel bounds. -/
def natToBase36Aux : Nat → Nat → List Char → List Char
  | 0, n, acc => base36Digit (n % 36) :: acc
  | fuel + 1, n, acc =>
    if n < 36 then base36Digit n :: acc
    else natToBase36Aux fuel (n / 36) (base36Digit (n % 36) :: acc)

/-- `n.toString(36)` for a natural number. -/
def natToBase36 (n : Nat) : String :=
  String.mk (natToBase36Aux n n [])

/-- `n.toString(36)` for a (32-bit) integer: negative values get a `-`. -/
def intToBase36 (n : Int) : String :=
  if n < 0 then "-" ++ natToBase36 n.natAbs else natToBase36 n.toNat

/-- A JavaScript number as far as the cache-hit-rate computation needs it:
`NaN`, the infinities, or an exact rational value (all arithmetic the
scraper does on finite values is exact in IEEE doubles at these
magnitudes, so a rational is faithful). -/
inductive JsNum where
  | nan
  | posInf
  | negInf
  | num (q : ℚ)

/-- JavaScript `/` on the values the scraper divides (finite, nonnegative
numerators): `0 / 0` is `NaN` and `x / 0` is `Infinity` for `x > 0`. -/
def jsDiv (a b : JsNum) : JsNum :=
  match a, b with
  | .num x, .num y =>
    if y = 0 then (if x = 0 then .nan else if x > 0 then .posInf else .negInf)
    else .num (x / y)
  | _, _ => .nan

/-- JavaScript `* k` for a positive finite literal `k` (the source only
multiplies by `100`). -/
def jsMul (a : JsNum) (k : ℚ) : JsNum :=
  match a with
  | .nan => .nan
  | .posInf => .posInf
  | .negInf => .negInf
  | .num x => .num (x * k)

/-- `x.toFixed(1)`: `NaN` and infinities render to their names; a finite
value is rounded to one decimal.  (The decimal rendering of finite values
approximates the IEEE-double behaviour; no claim depends on it.) -/
def jsToFixed1 (a : JsNum) : String :=
  match a with
  | .nan => "NaN"
  | .posInf => "Infinity"
  | .negInf => "-Infinity"
  | .num q =>
    let n : Int := ⌊q * 10 + 1 / 2⌋
    toString (n / 10) ++ "." ++ toString (n % 10)

/-! ## `pageCache.js`: the page cache -/

/-- One entry of the page cache (`Map` value built by `loadPageCache` /
`updateCacheEntry`).  `lastScraped` is the millisecond timestamp of the
stored ISO string, `lastModified` a nullable string. -/
structure CachedPage where
  url : String
  title : String
  lastScraped : Int
  contentHash : String
  hasEInvoicingContent : Bool
  postsCount : Nat
  lastModified : Option String
  httpStatus : Nat
  deriving DecidableEq, Repr

/-- The in-memory page cache: a JavaScript `Map<url, CachedPage>`. -/
abbrev CacheMap := List (String × CachedPage)

/-- `cacheMap.get(url)`. -/
def mapGet (m : CacheMap) (url : String) : Option CachedPage :=
  (m.find? (fun e => e.1 == url)).map (·.2)

/-- One step of the rolling hash in `generateContentHash`:
`hash = ((hash << 5) - hash) + char; hash = hash & hash`. -/
def hashStep (hash : Int) (c : Char) : Int :=
  toInt32 (toInt32 (toInt32 hash * 32) - hash + (c.toNat : Int))

/-- `generateContentHash(content)`: rolling hash of the first 5000
UTF-16 code units (`content.substring(0, 5000)`), rendered in base 36. -/
def generateContentHash (content : String) : String :=
  let str := content.toList.take 5000
  let hash := str.foldl hashStep 0
  intToBase36 hash

/-- `hasPageChanged(cacheMap, url, content)`. -/
def hasPageChanged (cacheMap : CacheMap) (url content : String) : Bool :=
  match mapGet cacheMap url with
  | none => true
  | some cached => cached.contentHash != generateContentHash content

/-- The Boolean re-fetch condition of `getPagesToRescrape` for one URL:
no cache entry, or `now - lastScraped > maxAgeMs`. -/
def needsFetch (cacheMap : CacheMap) (maxAgeMs now : Int) (url : String) : Bool :=
  match mapGet cacheMap url with
  | none => true
  | some cached => decide (now - cached.lastScraped > maxAgeMs)

/-- The `for (const url of allPageUrls)` loop of `getPagesToRescrape`,
with its two accumulator arrays. -/
def rescrapePartition (cacheMap : CacheMap) (maxAgeMs now : Int) :
    List String → List String → List String → List String × List String
  | [], newPages, cachedPages => (newPages, cachedPages)
  | url :: rest, newPages, cachedPages =>
    match mapGet cacheMap url with
    | none => rescrapePartition cacheMap maxAgeMs now rest (newPages ++ [url]) cachedPages
    | some cached =>
      if now - cached.lastScraped > maxAgeMs then
        rescrapePartition cacheMap maxAgeMs now rest (newPages ++ [url]) cachedPages
      else
        rescrapePartition cacheMap maxAgeMs now rest newPages (cachedPages ++ [url])

/-- Return value of `getPagesToRescrape`. -/
structure RescrapeResult where
  newPages : List String
  cachedPages : List String
  totalPages : Nat
  cacheHitRate : String
  deriving DecidableEq, Repr

/-- `getPagesToRescrape(cacheMap, allPageUrls, maxAgeDays)`; `now` is
`Date.now()` at the call. -/
def getPagesToRescrape (cacheMap : CacheMap) (allPageUrls : List String)
    (maxAgeDays now : Int) : RescrapeResult :=
  let maxAgeMs := maxAgeDays * 24 * 60 * 60 * 1000
  let p := rescrapePartition cacheMap maxAgeMs now allPageUrls [] []
  { newPages := p.1
    cachedPages := p.2
    totalPages := allPageUrls.length
    cacheHitRate :=
      jsToFixed1 (jsMul (jsDiv (.num p.2.length) (.num allPageUrls.length)) 100) ++ "%" }

/-! ## `pageCache.js`: persistence (`savePageCache` / `loadPageCache`) -/

/-- One row of the `page_cache` table, as built by `savePageCache`
(`updated_at` is written but never read back by `loadPageCache`). -/
structure PageRow where
  page_url : String
  page_title : String
  last_scraped : Int
  content_hash : String
  has_einvoicing_content : Bool
  einvoicing_posts_count : Nat
  last_modified : Option String
  http_status : Nat
  updated_at : Int
  deriving DecidableEq, Repr

/-- The row `savePageCache` builds for one map entry.  The `|| default`
fallbacks of the source are applied: strings and booleans are unchanged
(`'' || ''` is `''`, `false || false` is `false`), `lastScraped` is a
nonempty ISO string and hence never falsy, `lastModified` goes through
`|| null`, `postsCount` through `|| 0` (identity on naturals) and
`httpStatus` through `|| 200`. -/
def pageToRow (now : Int) (url : String) (meta : CachedPage) : PageRow :=
  { page_url := url
    page_title := meta.title
    last_scraped := meta.lastScraped
    content_hash := meta.contentHash
    has_einvoicing_content := meta.hasEInvoicingContent
    einvoicing_posts_count := meta.postsCount
    last_modified := jsOrNull meta.lastModified
    http_status := if meta.httpStatus = 0 then 200 else meta.httpStatus
    updated_at := now }

/-- Modelled from the spec: the backing `page_cache` store is an external
collaborator "upserted by URL" (§6); a single-row upsert replaces the row
with the same `page_url`, or appends a fresh one. -/
def upsertRow (store : List PageRow) (r : PageRow) : List PageRow :=
  if store.any (fun x => x.page_url == r.page_url) then
    store.map (fun x => if x.page_url == r.page_url then r else x)
  else
    store ++ [r]

/-- One `upsert(batch)` call: the rows of the batch are upserted in order. -/
def upsertBatch (store : List PageRow) (batch : List PageRow) : List PageRow :=
  batch.foldl upsertRow store

/-- The batching loop of `savePageCache`
(`for (let i = 0; i < pages.length; i += batchSize)` with
`batchSize = 500`).  The fuel only bounds the number of loop iterations
(`pages.length` is always enough); the zero-fuel fallback upserts the
remaining rows in one batch, so any fuel yields the same sequence of
upserts. -/
def saveInBatches : Nat → List PageRow → List PageRow → List PageRow
  | _, store, [] => store
  | 0, store, pages => upsertBatch store pages
  | fuel + 1, store, pages =>
    saveInBatches fuel (upsertBatch store (pages.take 500)) (pages.drop 500)

/-- `savePageCache(cacheMap)` on the Supabase path: convert the map to an
array of rows and upsert it in batches of 500, `onConflict: 'page_url'`. -/
def savePageCache (store : List PageRow) (cacheMap : CacheMap) (now : Int) : List PageRow :=
  let pages := cacheMap.map (fun e => pageToRow now e.1 e.2)
  saveInBatches pages.length store pages

/-- The map entry `loadPageCache` rebuilds from one row. -/
def rowToPage (r : PageRow) : String × CachedPage :=
  (r.page_url,
    { url := r.page_url
      title := r.page_title
      lastScraped := r.last_scraped
      contentHash := r.content_hash
      hasEInvoicingContent := r.has_einvoicing_content
      postsCount := r.einvoicing_posts_count
      lastModified := r.last_modified
      httpStatus := r.http_status })

/-- `loadPageCache()` on the Supabase path: select all rows and rebuild
the `Map` (the `order by last_scraped` clause only permutes the rows and
is immaterial to set-equality). -/
def loadPageCache (store : List PageRow) : CacheMap :=
  store.map rowToPage

/-- The keys of a row store. -/
def rowKeys (store : List PageRow) : List String :=
  store.map (fun r => r.page_url)

/-- A cache-map entry as the rest of the system produces it
(`updateCacheEntry` / `loadPageCache`): the value's `url` field equals its
key, `httpStatus` is a real status (never `0`, the source coerces `0` to
`200` on creation already) and `lastModified` is `null` or a nonempty
string. -/
def EntryWF (e : String × CachedPage) : Prop :=
  e.2.url = e.1 ∧ e.2.httpStatus ≠ 0 ∧ e.2.lastModified ≠ some ""

/-! ## `supabaseStorage.js`: the post store (`addNewPosts`) -/

/-- A candidate content item produced by one crawl run
(`{ publicationDate, url, title, content }` from `parseHTMLContent`). -/
structure ScrapedPost where
  url : String
  title : String
  content : String
  publicationDate : Option Int
  deriving DecidableEq, Repr

/-- One app-format post row (`'Post URL'`, `'Post Title'`, ... object).
`publicationDate` and `scrapeTs` are the timestamps behind the rendered
date strings. -/
structure PostRow where
  publicationDate : Int
  postUrl : String
  postTitle : String
  contentSummary : String
  scrapeTs : Int
  status : String
  deriving DecidableEq, Repr

/-- The entry `addNewPosts` constructs for a fresh candidate
(`Status: 'New'`, `'Scrape Timestamp': now`). -/
def mkEntry (now : Int) (post : ScrapedPost) : PostRow :=
  { publicationDate := post.publicationDate.getD now
    postUrl := post.url
    postTitle := post.title
    contentSummary := post.content
    scrapeTs := now
    status := "New" }

/-- The `for (const post of newPosts)` loop of `addNewPosts`: a candidate
is admitted iff its URL is not among the existing posts' URLs.
`existingUrls` is built once before the loop and never extended. -/
def admitLoop (existingUrls : List String) (now : Int) :
    List ScrapedPost → List PostRow → List PostRow
  | [], acc => acc
  | post :: rest, acc =>
    if existingUrls.contains post.url then admitLoop existingUrls now rest acc
    else admitLoop existingUrls now rest (acc ++ [mkEntry now post])

/-- The status-aging sweep (`updatedData.forEach`): a `New` entry whose
scrape timestamp is older than 24 hours becomes `Existing`; every other
entry is untouched. -/
def sweepEntry (now : Int) (entry : PostRow) : PostRow :=
  if entry.status = "New" ∧ entry.scrapeTs < now - 24 * 60 * 60 * 1000 then
    { entry with status := "Existing" }
  else entry

/-- Return value of `addNewPosts`. -/
structure MergeResult where
  newPosts : List PostRow
  updatedData : List PostRow
  statsTotal : Nat
  statsNew : Nat
  statsExisting : Nat
  deriving DecidableEq, Repr

/-- `addNewPosts(newPosts)` of `supabaseStorage.js`; `existingPosts` is
what `loadAllPosts()` returned and `now` is the run's timestamp.  The
source mutates the (aliased) entry objects in place during the sweep; the
returned `newPosts` entries all carry `scrapeTs = now` and are never aged
by the sweep, so returning the un-swept `newEntries` is observationally
identical. -/
def addNewPosts (existingPosts : List PostRow) (newPosts : List ScrapedPost)
    (now : Int) : MergeResult :=
  let existingUrls := existingPosts.map (fun p => p.postUrl)
  let newEntries := admitLoop existingUrls now newPosts []
  let updatedData := (existingPosts ++ newEntries).map (sweepEntry now)
  { newPosts := newEntries
    updatedData := updatedData
    statsTotal := updatedData.length
    statsNew := newEntries.length
    statsExisting := existingPosts.length }

/-! ## `scraper.js`: the keyword matcher -/

/-- The `E_INVOICING_KEYWORDS` array, verbatim (duplicates included). -/
def E_INVOICING_KEYWORDS : List String := [
  "e-invoice", "e invoice", "einvoice", "einvoice",
  "e-invoicing", "e invoicing", "einvoicing", "einvoicing",
  "electronic invoice", "electronic invoicing",
  "digital invoice", "digital invoicing",
  "e-billing", "e billing", "ebilling",
  "electronic billing", "digital billing",
  "online invoice", "online invoicing",
  "e-bill", "e bill", "ebill",
  "electronic bill",
  "e-inv", "e inv", "einv",
  "e-bill", "e bill", "ebill",
  "peppol", "peppol network", "peppol standard", "peppol invoice",
  "ubl", "universal business language", "ubl invoice",
  "xml invoice", "xml invoicing",
  "edi invoice", "edi invoicing", "electronic data interchange",
  "structured invoice", "structured invoicing",
  "irn", "invoice reference number",
  "gst invoice", "gst e-invoice", "gst electronic invoice",
  "e-way bill", "eway bill", "e way bill",
  "tax invoice electronic", "electronic tax invoice",
  "invoice automation", "automated invoicing",
  "invoice digitization", "invoice digitalization",
  "invoice compliance", "invoice regulation",
  "invoice directive", "invoice legislation",
  "invoice standard", "invoice specification",
  "invoice format", "invoice protocol",
  "standardized invoicing", "structured invoicing",
  "e-facturatie", "e facturatie", "efacturatie",
  "elektronische facturering", "elektronische factuur", "elektronische facturatie",
  "digitale facturering", "digitale factuur", "digitale facturatie",
  "online facturering", "online factuur",
  "elektronisch factureren", "digitaal factureren",
  "peppol facturatie", "peppol factuur",
  "e-factuur", "e factuur", "efactuur",
  "facturation électronique", "facturation electronique",
  "facture électronique", "facture electronique",
  "facturation numérique", "facture numérique",
  "facturation digitale", "facture digitale",
  "e-facturation", "e facturation", "efacturation",
  "peppol facturation", "peppol facture",
  "facture digitale",
  "elektronische rechnung", "elektronisches rechnungswesen",
  "digitale rechnung", "e-rechnung", "e rechnung", "erechnung",
  "elektronische fakturierung",
  "factura electrónica", "factura electronica",
  "facturación electrónica", "facturacion electronica",
  "e-factura", "e factura", "efactura",
  "fattura elettronica", "fatturazione elettronica",
  "e-fattura", "e fattura", "efattura",
  "nota fiscal eletrônica", "nota fiscal eletronica",
  "nfe", "nf-e", "nfe invoice",
  "e-fatura", "e fatura", "efatura",
  "e-fatura", "e fatura", "efatura",
  "elektronik fatura",
  "电子发票", "電子發票",
  "電子インボイス", "電子請求書",
  "einvoice", "e-invoice", "e invoice",
  "einvoicing", "e-invoicing", "e invoicing",
  "ebilling", "e-billing", "e billing",
  "efacturatie", "e-facturatie", "e facturatie",
  "efactuur", "e-factuur", "e factuur",
  "efacturation", "e-facturation", "e facturation",
  "einvoice system", "e-invoice system", "electronic invoicing system",
  "einvoice platform", "e-invoice platform",
  "einvoice standard", "e-invoice standard",
  "einvoice network", "e-invoice network"]

/-- The `[\s-]` character class (whitespace or hyphen). -/
def wsDash (c : Char) : Bool :=
  c.isWhitespace || c == '-'

/-- A sequence of literal tokens. -/
def lits (s : String) : List RTok :=
  s.toList.map RTok.lit

set_option maxHeartbeats 1000000 in
/-- The `einvoicePatterns` regex array, compiled to `RTok` programs in
source order.  `\b` is `.bnd`, `[\s-]?` is `.opt wsDash` and `[oó]`-style
classes are `.cls`. -/
def einvoicePatterns : List (List RTok) := [
  [.bnd] ++ lits "e" ++ [.opt wsDash] ++ lits "invoice",
  [.bnd] ++ lits "e" ++ [.opt wsDash] ++ lits "invoicing",
  [.bnd] ++ lits "e" ++ [.opt wsDash] ++ lits "billing",
  [.bnd] ++ lits "e" ++ [.opt wsDash] ++ lits "bill" ++ [.bnd],
  [.bnd] ++ lits "e" ++ [.opt wsDash] ++ lits "inv" ++ [.bnd],
  [.bnd] ++ lits "electronic" ++ [.opt wsDash] ++ lits "invoice",
  [.bnd] ++ lits "electronic" ++ [.opt wsDash] ++ lits "invoicing",
  [.bnd] ++ lits "digital" ++ [.opt wsDash] ++ lits "invoice",
  [.bnd] ++ lits "digital" ++ [.opt wsDash] ++ lits "invoicing",
  [.bnd] ++ lits "online" ++ [.opt wsDash] ++ lits "invoice",
  [.bnd] ++ lits "online" ++ [.opt wsDash] ++ lits "invoicing",
  [.bnd] ++ lits "e" ++ [.opt wsDash] ++ lits "facturatie",
  [.bnd] ++ lits "e" ++ [.opt wsDash] ++ lits "factuur",
  [.bnd] ++ lits "elektronisch" ++ [.opt wsDash] ++ lits "factur",
  [.bnd] ++ lits "digitale" ++ [.opt wsDash] ++ lits "factur",
  [.bnd] ++ lits "factur" ++ [.opt wsDash] ++ lits "électronique",
  [.bnd] ++ lits "factur" ++ [.opt wsDash] ++ lits "electronique",
  [.bnd] ++ lits "factur" ++ [.opt wsDash] ++ lits "numérique",
  [.bnd] ++ lits "factur" ++ [.opt wsDash] ++ lits "digitale",
  [.bnd] ++ lits "e" ++ [.opt wsDash] ++ lits "facturation",
  [.bnd] ++ lits "elektronisch" ++ [.opt wsDash] ++ lits "rechnung",
  [.bnd] ++ lits "e" ++ [.opt wsDash] ++ lits "rechnung",
  [.bnd] ++ lits "elektronisch" ++ [.opt wsDash] ++ lits "faktur",
  [.bnd] ++ lits "factur" ++ [.opt wsDash] ++ lits "electr" ++
    [.cls (fun c => c == 'o' || c == 'ó')] ++ lits "nica",
  [.bnd] ++ lits "e" ++ [.opt wsDash] ++ lits "factura",
  [.bnd] ++ lits "fattur" ++ [.opt wsDash] ++ lits "elettronica",
  [.bnd] ++ lits "e" ++ [.opt wsDash] ++ lits "fattura",
  [.bnd] ++ lits "nota" ++ [.opt wsDash] ++ lits "fiscal" ++ [.opt wsDash] ++
    lits "eletr" ++ [.cls (fun c => c == 'o' || c == 'ô')] ++ lits "nica",
  [.bnd] ++ lits "nf" ++ [.opt wsDash] ++ lits "e" ++ [.bnd],
  [.bnd] ++ lits "e" ++ [.opt wsDash] ++ lits "fatura",
  [.bnd] ++ lits "elektronik" ++ [.opt wsDash] ++ lits "fatura",
  [.bnd] ++ lits "e" ++ [.opt wsDash] ++ lits "fatura",
  [.bnd] ++ lits "peppol",
  [.bnd] ++ lits "ubl" ++ [.opt wsDash] ++ lits "invoice",
  [.bnd] ++ lits "xml" ++ [.opt wsDash] ++ lits "invoice",
  [.bnd] ++ lits "edi" ++ [.opt wsDash] ++ lits "invoice",
  [.bnd] ++ lits "structured" ++ [.opt wsDash] ++ lits "invoice",
  [.bnd] ++ lits "irn" ++ [.bnd],
  [.bnd] ++ lits "gst" ++ [.opt wsDash] ++ lits "e" ++ [.opt wsDash] ++ lits "invoice",
  [.bnd] ++ lits "gst" ++ [.opt wsDash] ++ lits "electronic" ++ [.opt wsDash] ++ lits "invoice",
  [.bnd] ++ lits "e" ++ [.opt wsDash] ++ lits "way" ++ [.opt wsDash] ++ lits "bill",
  [.bnd] ++ lits "eway" ++ [.opt wsDash] ++ lits "bill"]

/-- `containsEInvoicingKeywords(text)`: substring or `\b`-delimited match
of any keyword on the lowercased text, then the regex patterns.  The
leading `if (!text ...) return false` guard makes the empty string
irrelevant (a falsy string input returns `false`). -/
def containsEInvoicingKeywords (text : String) : Bool :=
  if text = "" then false
  else
    let lowerText := (jsToLower text)
    (E_INVOICING_KEYWORDS.any fun keyword =>
      let lowerKeyword := (jsToLower keyword)
      strIncludes lowerText lowerKeyword || wholeWordMatch lowerText lowerKeyword)
    || einvoicePatterns.any (fun p => patTest p lowerText)

/-! ## `scraper.js`: the secondary (LLM) verification -/

/-- The `strongIndicators` array of `verifyWithAlternativeLLM`, verbatim. -/
def strongIndicators : List String := [
  "e-invoice", "einvoice", "e invoice",
  "e-invoicing", "einvoicing", "e invoicing",
  "electronic invoice", "electronic invoicing",
  "e-facturatie", "efacturatie", "e facturatie",
  "elektronische factuur", "elektronische facturering",
  "facturation électronique", "facture électronique",
  "facturation electronique", "facture electronique",
  "peppol", "ubl invoice", "xml invoice",
  "e-billing", "ebilling", "e billing",
  "digital invoice", "digital invoicing",
  "e-factuur", "efactuur", "e factuur"]

/-- The `excludeTerms` array of `verifyWithAlternativeLLM`, verbatim. -/
def excludeTerms : List String := [
  "invoice software", "invoice template", "invoice generator",
  "create invoice", "invoice app", "invoice management",
  "billing software", "accounting software", "invoice tool",
  "invoice maker", "free invoice", "invoice design",
  "invoice format", "invoice sample", "invoice example"]

/-- `verifyWithAlternativeLLM(title, content)`: the deterministic
rule-based fallback (strong-indicator counting, generic-tool exclusion,
title-only caution). -/
def verifyWithAlternativeLLM (title content : String) : Bool :=
  let combinedText := (jsToLower (title ++ " " ++ content))
  let strongCount :=
    (strongIndicators.filter (fun ind => strIncludes combinedText (jsToLower ind))).length
  if strongCount = 0 then false
  else
    let hasExcludeTerm := excludeTerms.any fun term =>
      let hasTerm := strIncludes combinedText (jsToLower term)
      let hasEInvoicing := strIncludes combinedText "e-invoicing" ||
        strIncludes combinedText "electronic invoicing" ||
        strIncludes combinedText "e-facturatie"
      hasTerm && !hasEInvoicing
    if hasExcludeTerm then false
    else
      let titleHasKeyword := strongIndicators.any fun ind => strIncludes (jsToLower title) ind
      let contentHasKeyword := strongIndicators.any fun ind => strIncludes (jsToLower content) ind
      if titleHasKeyword && !contentHasKeyword && content.length < 50 then false
      else true

/-- Outcome of the external `/api/verify-llm` round trip inside
`verifyWithLLM`: the fetch throws, the HTTP response is not OK, the
backend reports `success: false`, or it reports `success: true` with a
`verified` verdict (`data.verified === true`). -/
inductive LLMOutcome where
  | netError
  | httpError
  | apiFailure
  | ok (verified : Bool)
  deriving DecidableEq, Repr

/-- `verifyWithLLM(title, content, url)` as a function of the oracle
outcome: the `verified` verdict on success, the deterministic fallback on
every failure path. -/
def verifyWithLLM (outcome : LLMOutcome) (title content : String) : Bool :=
  match outcome with
  | .ok verified => verified
  | .netError => verifyWithAlternativeLLM title content
  | .httpError => verifyWithAlternativeLLM title content
  | .apiFailure => verifyWithAlternativeLLM title content

/-- The secondary check as the claim words it: false when no strong
indicator occurs in title-plus-content; false when a generic
invoicing-tool term occurs without the strong e-invoicing vocabulary
(`e-invoicing` / `electronic invoicing` / `e-facturatie`); false when
only the title contains a strong indicator and the content is shorter
than the small threshold (50); true otherwise. -/
def verifySpecFallback (title content : String) : Bool :=
  let combined := (jsToLower (title ++ " " ++ content))
  let eInvVocab := strIncludes combined "e-invoicing" ||
    strIncludes combined "electronic invoicing" ||
    strIncludes combined "e-facturatie"
  if !(strongIndicators.any fun ind => strIncludes combined (jsToLower ind)) then false
  else if (excludeTerms.any fun term => strIncludes combined (jsToLower term)) && !eInvVocab then
    false
  else if (strongIndicators.any fun ind => strIncludes (jsToLower title) ind) &&
      !(strongIndicators.any fun ind => strIncludes (jsToLower content) ind) &&
      content.length < 50 then
    false
  else true

/-! ## `scraper.js`: the extraction pipeline (`parseHTMLContent`)

The DOM itself is external (`DOMParser`, `querySelectorAll`, `closest`);
following the spec's PageParser abstraction, a parsed page is the data
the source reads off it: the body text, the `a[href]` node list (each
with its link text, surrounding-context text and chosen title-element
text) and the `foundElements` list produced by the structure selectors or
the link fallback.  `new URL(href, baseUrl).href` is an abstract
`resolve` function, and `verifyWithLLM` is an abstract `oracle`
(its network outcome differs per call).  Publication-date extraction
touches no control flow that decides which posts are emitted and is
elided from the emitted records. -/

/-- One `a[href]` DOM node as `parseHTMLContent` reads it. -/
structure DomLink where
  href : String
  linkText : String
  contextText : String
  titleText : String
  deriving DecidableEq, Repr

/-- One element of `foundElements` as `parseHTMLContent` reads it:
its title-element text, its full text, its first `a[href]` (if any) and
the text of its chosen content/summary element. -/
structure DomElement where
  titleText : String
  elementText : String
  linkHref : Option String
  contentText : String
  deriving DecidableEq, Repr

/-- A parsed HTML document, PageParser-style. -/
structure DomPage where
  bodyText : String
  links : List DomLink
  elements : List DomElement
  deriving DecidableEq, Repr

/-- An emitted post (`{ url, title, content }`; the `publicationDate`
field never influences emission and is elided). -/
structure ParsedPost where
  url : String
  title : String
  content : String
  deriving DecidableEq, Repr

/-- Instrumentation record: one `await verifyWithLLM(title, content, url)`
call site, together with the text whose keyword check guarded it. -/
structure OracleCall where
  srcText : String
  title : String
  content : String
  url : String
  deriving DecidableEq, Repr

/-- Posts accumulated so far plus the oracle-call log. -/
structure ParseAcc where
  posts : List ParsedPost
  calls : List OracleCall
  deriving DecidableEq, Repr

/-- `href.startsWith('http') ? href : new URL(href, baseUrl).href`. -/
def fullUrlOf (resolve : String → String) (href : String) : String :=
  if jsStartsWith href "http" then href else resolve href

/-- `content.length > 500 ? content.substring(0, 500) + '...' : content`. -/
def trunc500 (s : String) : String :=
  if s.length > 500 then String.mk (s.toList.take 500) ++ "..." else s

/-- The first loop of `parseHTMLContent` (the `pageHasEInvoicing`
branch): walk all links, dedupe by raw `href`, keep internal
`bosa.belgium.be` links, and for each one whose link text plus context
passes the keyword check, build a title and truncated content and consult
the LLM verifier. -/
def parseLinksPass1 (resolve : String → String) (oracle : String → String → String → Bool) :
    List DomLink → List String → ParseAcc → ParseAcc
  | [], _, acc => acc
  | l :: rest, seen, acc =>
    if l.href = "" || seen.contains l.href then
      parseLinksPass1 resolve oracle rest seen acc
    else
      let fullUrl := fullUrlOf resolve l.href
      if strIncludes fullUrl "mailto:" || strIncludes fullUrl "tel:" ||
          strIncludes fullUrl "#" then
        parseLinksPass1 resolve oracle rest seen acc
      else if !strIncludes fullUrl "bosa.belgium.be" then
        parseLinksPass1 resolve oracle rest seen acc
      else
        let seen' := seen ++ [l.href]
        if containsEInvoicingKeywords (l.linkText ++ " " ++ l.contextText) then
          let title := jsOrS (jsTrim l.titleText) (jsOrS (jsTrim l.linkText) "E-Invoicing Related Content")
          if title.length < 3 then parseLinksPass1 resolve oracle rest seen' acc
          else
            let content := jsTrim (trunc500 (jsOrS l.contextText l.linkText))
            let call : OracleCall :=
              { srcText := l.linkText ++ " " ++ l.contextText
                title := title, content := content, url := fullUrl }
            if oracle title content fullUrl then
              parseLinksPass1 resolve oracle rest seen'
                { posts := acc.posts ++ [{ url := fullUrl, title := title, content := content }]
                  calls := acc.calls ++ [call] }
            else
              parseLinksPass1 resolve oracle rest seen' { acc with calls := acc.calls ++ [call] }
        else
          parseLinksPass1 resolve oracle rest seen' acc

/-- The `foundElements` loop: strict keyword check on title plus element
text, URL from the element's link, truncated content, LLM verification. -/
def parseElements (resolve : String → String) (oracle : String → String → String → Bool) :
    List DomElement → ParseAcc → ParseAcc
  | [], acc => acc
  | e :: rest, acc =>
    let title := (jsTrim e.titleText)
    if title = "" || title.length < 5 then parseElements resolve oracle rest acc
    else
      let combinedText := title ++ " " ++ e.elementText
      if !containsEInvoicingKeywords combinedText then parseElements resolve oracle rest acc
      else
        let url := match e.linkHref with
          | none => ""
          | some h => if h ≠ "" && !jsStartsWith h "http" then resolve h else h
        if url = "" then parseElements resolve oracle rest acc
        else
          let content := jsTrim (trunc500 e.contentText)
          let call : OracleCall :=
            { srcText := combinedText, title := title, content := content, url := url }
          if oracle title content url then
            parseElements resolve oracle rest
              { posts := acc.posts ++ [{ url := url, title := title, content := content }]
                calls := acc.calls ++ [call] }
          else
            parseElements resolve oracle rest { acc with calls := acc.calls ++ [call] }

/-- The final `allLinks` sweep: strict keyword check on link text plus
context, skip URLs already emitted or external, then LLM verification. -/
def parseLinksPass2 (resolve : String → String) (oracle : String → String → String → Bool) :
    List DomLink → ParseAcc → ParseAcc
  | [], acc => acc
  | l :: rest, acc =>
    if l.href = "" then parseLinksPass2 resolve oracle rest acc
    else
      let combinedLinkText := l.linkText ++ " " ++ l.contextText
      if !containsEInvoicingKeywords combinedLinkText then parseLinksPass2 resolve oracle rest acc
      else
        let fullUrl := fullUrlOf resolve l.href
        if (acc.posts.any fun p => p.url == fullUrl) || !strIncludes fullUrl "bosa.belgium.be" then
          parseLinksPass2 resolve oracle rest acc
        else
          let finalTitle := jsOrS (jsTrim l.titleText) (jsTrim l.linkText)
          if finalTitle.length < 3 then parseLinksPass2 resolve oracle rest acc
          else
            let content := jsTrim (trunc500 (jsOrS l.contextText l.linkText))
            let call : OracleCall :=
              { srcText := combinedLinkText, title := finalTitle, content := content, url := fullUrl }
            if oracle finalTitle content fullUrl then
              parseLinksPass2 resolve oracle rest
                { posts := acc.posts ++ [{ url := fullUrl, title := finalTitle, content := content }]
                  calls := acc.calls ++ [call] }
            else
              parseLinksPass2 resolve oracle rest { acc with calls := acc.calls ++ [call] }

/-- `parseHTMLContent(html, baseUrl)`: if the page body passes the
keyword check, run the first link pass and return its posts if nonempty;
otherwise (or when it found nothing) run the `foundElements` loop and the
final link sweep over the same accumulator. -/
def parseHTMLContent (page : DomPage) (resolve : String → String)
    (oracle : String → String → String → Bool) : ParseAcc :=
  let pageHasEInvoicing := containsEInvoicingKeywords page.bodyText
  if pageHasEInvoicing then
    let acc1 := parseLinksPass1 resolve oracle page.links [] { posts := [], calls := [] }
    if acc1.posts.length > 0 then acc1
    else
      parseLinksPass2 resolve oracle page.links (parseElements resolve oracle page.elements acc1)
  else
    parseLinksPass2 resolve oracle page.links
      (parseElements resolve oracle page.elements { posts := [], calls := [] })

/-! ## `pageCache.js` (second half): the full-site crawler -/

/-- The crawler's mutable state: the visited set, the FIFO frontier of
`{url, depth}` records and the `allLinks` enqueue-guard set, plus two
instrumentation logs — the pages actually processed (marked visited and
fetched) and every push onto the frontier. -/
structure CrawlState where
  visited : List String
  toVisit : List (String × Nat)
  allLinks : List String
  fetchedLog : List (String × Nat)
  enqueuedLog : List (String × Nat)
  deriving DecidableEq, Repr

/-- The inner `for (const link of links)` loop of `crawlWebsite`: a link
is enqueued at `depth + 1` iff it is in neither the visited set nor
`allLinks`; enqueued links are added to `allLinks`. -/
def enqueueLinks (visited : List String) (depth1 : Nat) :
    List String → List String → List (String × Nat) → List String × List (String × Nat)
  | [], allLinks, pushed => (allLinks, pushed)
  | link :: ls, allLinks, pushed =>
    if visited.contains link || allLinks.contains link then
      enqueueLinks visited depth1 ls allLinks pushed
    else
      enqueueLinks visited depth1 ls (allLinks ++ [link]) (pushed ++ [(link, depth1)])

/-- The `while (toVisit.length > 0)` loop of `crawlWebsite` (the
full-crawl version, no page cap), fuelled: each iteration dequeues one
frontier entry, skips it if already visited or deeper than `maxDepth`,
and otherwise marks it visited, fetches it (`fetchLinks url` is
`extractAllLinks` applied to the fetched HTML, `none` a fetch failure
contributing no links) and enqueues its unseen links. -/
def crawlLoop (fetchLinks : String → Option (List String)) (maxDepth : Nat) :
    Nat → CrawlState → CrawlState
  | 0, s => s
  | fuel + 1, s =>
    match s.toVisit with
    | [] => s
    | (url, depth) :: rest =>
      if s.visited.contains url || depth > maxDepth then
        crawlLoop fetchLinks maxDepth fuel { s with toVisit := rest }
      else
        let visited' := s.visited ++ [url]
        let fetched' := s.fetchedLog ++ [(url, depth)]
        match fetchLinks url with
        | none =>
          crawlLoop fetchLinks maxDepth fuel
            { s with visited := visited', toVisit := rest, fetchedLog := fetched' }
        | some links =>
          let eq := enqueueLinks visited' (depth + 1) links s.allLinks []
          crawlLoop fetchLinks maxDepth fuel
            { visited := visited'
              toVisit := rest ++ eq.2
              allLinks := eq.1
              fetchedLog := fetched'
              enqueuedLog := s.enqueuedLog ++ eq.2 }

/-- `crawlWebsite(startUrl, maxDepth)`: run the loop from the initial
state (`visited = {}`, `toVisit = [{startUrl, 0}]`,
`allLinks = {startUrl}`).  `fuel` bounds the number of loop iterations;
the JavaScript loop runs until the frontier drains. -/
def crawlWebsite (fetchLinks : String → Option (List String)) (startUrl : String)
    (maxDepth fuel : Nat) : CrawlState :=
  crawlLoop fetchLinks maxDepth fuel
    { visited := []
      toVisit := [(startUrl, 0)]
      allLinks := [startUrl]
      fetchedLog := []
      enqueuedLog := [] }

/-- A chain-shaped site used to exhibit unbounded page counts: page
`a x^k` links to `a x^(k+1)` alone. -/
def chainUrl (k : Nat) : String :=
  String.mk ('a' :: List.replicate k 'x')

/-- The fetcher of the chain site: every page yields exactly one new
link, its own URL extended by `x`. -/
def chainFetch (s : String) : Option (List String) :=
  some [s ++ "x"]

/-- The crawler state after `k` completed iterations on the chain site
with start page `a`: pages `a, ax, ..., a x^(k-1)` are visited and the
frontier holds exactly `a x^k` at depth `k`. -/
def chainState (k : Nat) : CrawlState :=
  { visited := (List.range k).map chainUrl
    toVisit := [(chainUrl k, k)]
    allLinks := (List.range (k + 1)).map chainUrl
    fetchedLog := (List.range k).map (fun i => (chainUrl i, i))
    enqueuedLog := (List.range k).map (fun i => (chainUrl (i + 1), i + 1)) }

/-- `store.find(row => row.page_url === u)`: the row of the backing store
keyed by `u`. -/
def findRow (store : List PageRow) (u : String) : Option PageRow :=
  store.find? (fun r => r.page_url == u)

/-- Invariant of the crawler state: the visited list has no duplicates
and is exactly the processed log's URLs; nothing processed was dequeued
deeper than `maxDepth`; each URL was enqueued at most once and only at
the depth of some processed parent plus one; enqueued URLs are all
recorded in the (duplicate-free) `allLinks` guard set. -/
def CrawlInv (maxDepth : Nat) (s : CrawlState) : Prop :=
  s.visited.Nodup ∧
  s.fetchedLog.map Prod.fst = s.visited ∧
  (∀ p ∈ s.fetchedLog, p.2 ≤ maxDepth) ∧
  (s.enqueuedLog.map Prod.fst).Nodup ∧
  (∀ q ∈ s.enqueuedLog, q.1 ∈ s.allLinks) ∧
  s.allLinks.Nodup ∧
  (∀ q ∈ s.enqueuedLog, ∃ p ∈ s.fetchedLog, q.2 = p.2 + 1)

/-! ## Helper lemmas -/

theorem needsFetch_iff (cacheMap : CacheMap) (maxAgeMs now : Int) (url : String) :
    needsFetch cacheMap maxAgeMs now url = true ↔
      mapGet cacheMap url = none ∨
        ∃ c, mapGet cacheMap url = some c ∧ now - c.lastScraped > maxAgeMs := by
  unfold needsFetch
  cases h : mapGet cacheMap url with
  | none => simp
  | some c => simp [h]

theorem needsFetch_congr (cacheMap cacheMap' : CacheMap) (maxAgeMs now : Int) (url : String)
    (h : (mapGet cacheMap url).map (fun c => c.lastScraped) =
      (mapGet cacheMap' url).map (fun c => c.lastScraped)) :
    needsFetch cacheMap maxAgeMs now url = needsFetch cacheMap' maxAgeMs now url := by
  unfold needsFetch
  cases h1 : mapGet cacheMap url with
  | none => cases h2 : mapGet cacheMap' url with
    | none => rfl
    | some c => rw [h1, h2] at h; simp at h
  | some c => cases h2 : mapGet cacheMap' url with
    | none => rw [h1, h2] at h; simp at h
    | some c' =>
      rw [h1, h2] at h
      have h' : c.lastScraped = c'.lastScraped := by simpa using h
      simp [h']

theorem rescrapePartition_eq (cacheMap : CacheMap) (maxAgeMs now : Int)
    (urls np cp : List String) :
    rescrapePartition cacheMap maxAgeMs now urls np cp =
      (np ++ urls.filter (needsFetch cacheMap maxAgeMs now),
       cp ++ urls.filter (fun u => !needsFetch cacheMap maxAgeMs now u)) := by
  induction urls generalizing np cp with
  | nil => simp [rescrapePartition]
  | cons u rest ih =>
    simp only [rescrapePartition]
    cases h : mapGet cacheMap u with
    | none =>
      have hn : needsFetch cacheMap maxAgeMs now u = true := by simp [needsFetch, h]
      rw [ih]
      simp [List.filter_cons, hn]
    | some c =>
      by_cases hc : now - c.lastScraped > maxAgeMs
      · have hn : needsFetch cacheMap maxAgeMs now u = true := by simp [needsFetch, h, hc]
        simp [ih, List.filter_cons, hn, hc]
      · have hn : needsFetch cacheMap maxAgeMs now u = false := by simp [needsFetch, h, hc]
        simp [ih, List.filter_cons, hn, hc]

/-! ## Claim C1: the rescrape selection partitions the discovered URLs -/

/-- C1: `getPagesToRescrape` places each discovered URL in exactly one of
`newPages` (to fetch) and `cachedPages` (to skip): uncached URLs and URLs
whose entry is older than `maxAgeDays` go to `newPages`, all others to
`cachedPages`; and the decision reads nothing but presence and
`lastScraped` of the cache entries — two caches agreeing on those produce
identical partitions, so page content is never inspected. -/
theorem getPagesToRescrape_partition (cacheMap : CacheMap) (allPageUrls : List String)
    (maxAgeDays now : Int) :
    (∀ url ∈ allPageUrls,
      ((mapGet cacheMap url = none ∨
          ∃ c, mapGet cacheMap url = some c ∧
            now - c.lastScraped > maxAgeDays * 24 * 60 * 60 * 1000) →
        url ∈ (getPagesToRescrape cacheMap allPageUrls maxAgeDays now).newPages ∧
          url ∉ (getPagesToRescrape cacheMap allPageUrls maxAgeDays now).cachedPages) ∧
      (¬(mapGet cacheMap url = none ∨
          ∃ c, mapGet cacheMap url = some c ∧
            now - c.lastScraped > maxAgeDays * 24 * 60 * 60 * 1000) →
        url ∈ (getPagesToRescrape cacheMap allPageUrls maxAgeDays now).cachedPages ∧
          url ∉ (getPagesToRescrape cacheMap allPageUrls maxAgeDays now).newPages)) ∧
    (∀ cacheMap' : CacheMap,
      (∀ u : String, (mapGet cacheMap u).map (fun c => c.lastScraped) =
          (mapGet cacheMap' u).map (fun c => c.lastScraped)) →
      (getPagesToRescrape cacheMap allPageUrls maxAgeDays now).newPages =
          (getPagesToRescrape cacheMap' allPageUrls maxAgeDays now).newPages ∧
        (getPagesToRescrape cacheMap allPageUrls maxAgeDays now).cachedPages =
          (getPagesToRescrape cacheMap' allPageUrls maxAgeDays now).cachedPages) := by
  have hres : ∀ m : CacheMap,
      (getPagesToRescrape m allPageUrls maxAgeDays now).newPages =
        allPageUrls.filter (needsFetch m (maxAgeDays * 24 * 60 * 60 * 1000) now) ∧
      (getPagesToRescrape m allPageUrls maxAgeDays now).cachedPages =
        allPageUrls.filter
          (fun u => !needsFetch m (maxAgeDays * 24 * 60 * 60 * 1000) now u) := by
    intro m
    simp [getPagesToRescrape, rescrapePartition_eq]
  constructor
  · intro url hurl
    constructor
    · intro hcond
      have hn : needsFetch cacheMap (maxAgeDays * 24 * 60 * 60 * 1000) now url = true :=
        (needsFetch_iff _ _ _ _).mpr hcond
      refine ⟨?_, ?_⟩
      · rw [(hres cacheMap).1]
        exact List.mem_filter.mpr ⟨hurl, hn⟩
      · rw [(hres cacheMap).2]
        intro hmem
        have := (List.mem_filter.mp hmem).2
        rw [hn] at this
        simp at this
    · intro hcond
      have hn : needsFetch cacheMap (maxAgeDays * 24 * 60 * 60 * 1000) now url = false := by
        cases h : needsFetch cacheMap (maxAgeDays * 24 * 60 * 60 * 1000) now url
        · rfl
        · exact absurd ((needsFetch_iff _ _ _ _).mp h) hcond
      refine ⟨?_, ?_⟩
      · rw [(hres cacheMap).2]
        exact List.mem_filter.mpr ⟨hurl, by simp [hn]⟩
      · rw [(hres cacheMap).1]
        intro hmem
        have := (List.mem_filter.mp hmem).2
        rw [hn] at this
        simp at this
  · intro cacheMap' hagree
    have hfil : allPageUrls.filter (needsFetch cacheMap (maxAgeDays * 24 * 60 * 60 * 1000) now) =
        allPageUrls.filter (needsFetch cacheMap' (maxAgeDays * 24 * 60 * 60 * 1000) now) := by
      apply List.filter_congr
      intro u _
      exact needsFetch_congr cacheMap cacheMap' _ now u (hagree u)
    have hfil' : allPageUrls.filter
          (fun u => !needsFetch cacheMap (maxAgeDays * 24 * 60 * 60 * 1000) now u) =
        allPageUrls.filter
          (fun u => !needsFetch cacheMap' (maxAgeDays * 24 * 60 * 60 * 1000) now u) := by
      apply List.filter_congr
      intro u _
      rw [needsFetch_congr cacheMap cacheMap' _ now u (hagree u)]
    refine ⟨?_, ?_⟩
    · rw [(hres cacheMap).1, (hres cacheMap').1, hfil]
    · rw [(hres cacheMap).2, (hres cacheMap').2, hfil']

/-- Witness for C1 at a concrete input: with one fresh cache entry for
`"a"` and discovered URLs `["a", "b"]`, the uncached `"b"` is fetched and
the fresh `"a"` is skipped. -/
theorem getPagesToRescrape_partition_witness :
    ("b" ∈ (getPagesToRescrape
        [("a", { url := "a", title := "", lastScraped := 0, contentHash := "",
                 hasEInvoicingContent := false, postsCount := 0, lastModified := none,
                 httpStatus := 200 })] ["a", "b"] 30 1000).newPages) ∧
    ("a" ∈ (getPagesToRescrape
        [("a", { url := "a", title := "", lastScraped := 0, contentHash := "",
                 hasEInvoicingContent := false, postsCount := 0, lastModified := none,
                 httpStatus := 200 })] ["a", "b"] 30 1000).cachedPages) := by
  constructor
  · exact (((getPagesToRescrape_partition
      [("a", { url := "a", title := "", lastScraped := 0, contentHash := "",
               hasEInvoicingContent := false, postsCount := 0, lastModified := none,
               httpStatus := 200 })] ["a", "b"] 30 1000).1 "b" (by decide)).1
      (Or.inl (by decide))).1
  · exact (((getPagesToRescrape_partition
      [("a", { url := "a", title := "", lastScraped := 0, contentHash := "",
               hasEInvoicingContent := false, postsCount := 0, lastModified := none,
               httpStatus := 200 })] ["a", "b"] 30 1000).1 "a" (by decide)).2
      (by decide)).1

/-! ## Claim C2: change detection on the bounded content slice -/

/-- C2: `hasPageChanged` is true iff the URL is uncached or the stored
hash differs from the hash of the given content; an uncached URL is
always reported changed; and the verdict depends only on the first 5000
characters of the content, since `generateContentHash` hashes exactly
that bounded slice. -/
theorem hasPageChanged_spec (m : CacheMap) (url content : String) :
    (hasPageChanged m url content = true ↔
      mapGet m url = none ∨
        ∃ c, mapGet m url = some c ∧ c.contentHash ≠ generateContentHash content) ∧
    (mapGet m url = none → hasPageChanged m url content = true) ∧
    (∀ content' : String, content.toList.take 5000 = content'.toList.take 5000 →
      hasPageChanged m url content = hasPageChanged m url content') := by
  have hgen : ∀ c' : String, content.toList.take 5000 = c'.toList.take 5000 →
      generateContentHash content = generateContentHash c' := by
    intro c' h
    unfold generateContentHash
    rw [h]
  refine ⟨?_, ?_, ?_⟩
  · unfold hasPageChanged
    cases h : mapGet m url with
    | none => simp
    | some c =>
      simp only [bne_iff_ne, ne_eq]
      constructor
      · intro hb
        exact Or.inr ⟨c, rfl, by simpa using hb⟩
      · rintro (hnone | ⟨c', hc', hne⟩)
        · exact absurd hnone (by simp)
        · have hcc : c = c' := by injection hc'
          rw [hcc]
          simpa using hne
  · intro h
    unfold hasPageChanged
    rw [h]
  · intro content' h
    unfold hasPageChanged
    rw [hgen content' h]

/-- Witness for C2 at a concrete input: the empty cache reports any URL
changed, and contents agreeing on their 5000-character bound agree. -/
theorem hasPageChanged_spec_witness :
    (mapGet ([] : CacheMap) "u" = none ∧ hasPageChanged [] "u" "abc" = true) ∧
    ("abc".toList.take 5000 = "abc".toList.take 5000 ∧
      hasPageChanged [] "u" "abc" = hasPageChanged [] "u" "abc") :=
  ⟨⟨rfl, (hasPageChanged_spec [] "u" "abc").2.1 rfl⟩,
   ⟨rfl, (hasPageChanged_spec [] "u" "abc").2.2 "abc" rfl⟩⟩

/-! ## Claim C10: the empty-discovery hit rate is the string `"NaN%"` -/

/-- C10: on an empty discovered-URL list `getPagesToRescrape` returns
empty `newPages` and `cachedPages` and `totalPages = 0`, and its
`cacheHitRate` is computed by the unguarded `0 / 0`, yielding the string
`"NaN%"`. -/
theorem getPagesToRescrape_empty_nan (cacheMap : CacheMap) (maxAgeDays now : Int) :
    getPagesToRescrape cacheMap [] maxAgeDays now =
      { newPages := [], cachedPages := [], totalPages := 0, cacheHitRate := "NaN%" } := by
  unfold getPagesToRescrape rescrapePartition
  simp [jsDiv, jsMul, jsToFixed1]

/-! ## Claim C3: merge deduplication against existing posts only -/

theorem admitLoop_eq (existingUrls : List String) (now : Int)
    (posts : List ScrapedPost) (acc : List PostRow) :
    admitLoop existingUrls now posts acc =
      acc ++ (posts.filter fun p => !existingUrls.contains p.url).map (mkEntry now) := by
  induction posts generalizing acc with
  | nil => simp [admitLoop]
  | cons p rest ih =>
    simp only [admitLoop]
    by_cases hp : p.url ∈ existingUrls
    · simp [hp, ih, List.filter_cons]
    · simp [hp, ih, List.filter_cons]

/-- Counterexample to C3 as stated: two same-run candidates with the
same URL `"u"` but titles `"A"` and `"B"`, against an empty existing
store, are BOTH admitted by `addNewPosts` — the claim says exactly one
Post would be admitted, with the first-encountered title. -/
theorem addNewPosts_intra_run_dup_cex :
    (addNewPosts []
        [{ url := "u", title := "A", content := "", publicationDate := none },
         { url := "u", title := "B", content := "", publicationDate := none }] 0).newPosts.length
      = 2 ∧
    (addNewPosts []
        [{ url := "u", title := "A", content := "", publicationDate := none },
         { url := "u", title := "B", content := "", publicationDate := none }] 0).newPosts.map
        (fun p => p.postTitle) = ["A", "B"] :=
  ⟨rfl, rfl⟩

/-- C3 amended: `addNewPosts` discards exactly the candidates whose URL
already occurs among the existing posts; candidates of the same run are
NOT deduplicated against each other (each non-existing candidate yields
one admitted entry, in order), so two same-URL candidates are both
admitted — intra-run dedup happens upstream, in `scrapeBOSAWebsite`'s
`seenInThisScrape` filter, not in the merge. -/
theorem addNewPosts_filter_existing (existingPosts : List PostRow)
    (newPosts : List ScrapedPost) (now : Int) :
    (addNewPosts existingPosts newPosts now).newPosts =
      (newPosts.filter fun p =>
        !((existingPosts.map fun q => q.postUrl).contains p.url)).map (mkEntry now) := by
  show admitLoop (existingPosts.map fun p => p.postUrl) now newPosts [] = _
  rw [admitLoop_eq]
  simp

/-! ## Claim C4: status aging in the merge sweep -/

/-- C4: after `addNewPosts`'s sweep, an existing entry that was `New`
and whose scrape timestamp is older than the 24-hour grace window has
become `Existing`; an `Existing` entry never turns back into `New`; and
no entry of the merged output is simultaneously `New` and older than the
grace window. -/
theorem addNewPosts_status_aging (existingPosts : List PostRow)
    (newPosts : List ScrapedPost) (now : Int) :
    (∀ (i : Nat) (e e' : PostRow), existingPosts.get? i = some e →
      (addNewPosts existingPosts newPosts now).updatedData.get? i = some e' →
      ((e.status = "New" → e.scrapeTs < now - 24 * 60 * 60 * 1000 →
          e'.status = "Existing") ∧
        (e.status = "Existing" → e'.status = "Existing"))) ∧
    (∀ e' ∈ (addNewPosts existingPosts newPosts now).updatedData,
      e'.status = "New" → ¬e'.scrapeTs < now - 24 * 60 * 60 * 1000) := by
  have hud : (addNewPosts existingPosts newPosts now).updatedData =
      (existingPosts ++
        admitLoop (existingPosts.map fun p => p.postUrl) now newPosts []).map
        (sweepEntry now) := rfl
  constructor
  · intro i e e' he he'
    have hlt : i < existingPosts.length := by
      by_contra hge
      rw [List.get?_eq_none.mpr (Nat.le_of_not_lt hge)] at he
      cases he
    have happ : (existingPosts ++
        admitLoop (existingPosts.map fun p => p.postUrl) now newPosts []).get? i = some e := by
      rw [List.get?_append hlt, he]
    rw [hud, List.get?_map, happ] at he'
    have he'e : e' = sweepEntry now e := by
      simpa using he'.symm
    subst he'e
    constructor
    · intro hN hT
      unfold sweepEntry
      rw [if_pos ⟨hN, hT⟩]
    · intro hE
      have hne : ¬(e.status = "New" ∧ e.scrapeTs < now - 24 * 60 * 60 * 1000) := by
        intro hc
        rw [hc.1] at hE
        exact absurd hE (by decide)
      unfold sweepEntry
      rw [if_neg hne]
      exact hE
  · intro e' hmem hN
    rw [hud] at hmem
    have hex : ∃ e, e' = sweepEntry now e := by
      simp only [List.mem_map] at hmem
      obtain ⟨e, _, heq⟩ := hmem
      exact ⟨e, heq.symm⟩
    obtain ⟨e, rfl⟩ := hex
    by_cases hc : e.status = "New" ∧ e.scrapeTs < now - 24 * 60 * 60 * 1000
    · unfold sweepEntry at hN
      rw [if_pos hc] at hN
      exact absurd (show ("Existing" : String) = "New" from hN) (by decide)
    · unfold sweepEntry at hN ⊢
      rw [if_neg hc] at hN ⊢
      intro hT
      exact hc ⟨hN, hT⟩

/-- Witness for C4 at a concrete input: a `New` post scraped at time `0`
is `Existing` after a merge sweep at time `90000000` (25 hours later). -/
theorem addNewPosts_status_aging_witness :
    PostRow.status
      ((addNewPosts
          [{ publicationDate := 0, postUrl := "u", postTitle := "t", contentSummary := "",
             scrapeTs := 0, status := "New" }] [] 90000000).updatedData.headD
        { publicationDate := 0, postUrl := "u", postTitle := "t", contentSummary := "",
          scrapeTs := 0, status := "New" }) = "Existing" := by
  have h := (addNewPosts_status_aging
    [{ publicationDate := 0, postUrl := "u", postTitle := "t", contentSummary := "",
       scrapeTs := 0, status := "New" }] [] 90000000).1 0
    { publicationDate := 0, postUrl := "u", postTitle := "t", contentSummary := "",
      scrapeTs := 0, status := "New" }
    ((addNewPosts
        [{ publicationDate := 0, postUrl := "u", postTitle := "t", contentSummary := "",
           scrapeTs := 0, status := "New" }] [] 90000000).updatedData.headD
      { publicationDate := 0, postUrl := "u", postTitle := "t", contentSummary := "",
        scrapeTs := 0, status := "New" }) rfl rfl
  exact h.1 rfl (by decide)

/-! ## Claim C7: the secondary verification and its deterministic fallback -/

theorem filter_length_zero_iff (l : List String) (p : String → Bool) :
    ((l.filter p).length = 0) ↔ (l.any p = false) := by
  rw [List.length_eq_zero]
  constructor
  · intro h
    cases hb : l.any p
    · rfl
    · obtain ⟨x, hx, hp⟩ := List.any_eq_true.mp hb
      have hm := List.mem_filter.mpr ⟨hx, hp⟩
      rw [h] at hm
      cases hm
  · intro h
    apply List.eq_nil_iff_forall_not_mem.mpr
    intro x hx
    rw [List.mem_filter] at hx
    have := List.any_eq_true.mpr ⟨x, hx.1, hx.2⟩
    rw [h] at this
    cases this

theorem any_and_const {α : Type} (l : List α) (p : α → Bool) (b : Bool) :
    (l.any fun x => p x && b) = (l.any p && b) := by
  cases b <;> simp

/-- C7: `verifyWithLLM` is a total Boolean function; on every failure
path of the external oracle (network error, non-OK response, reported
failure) it returns exactly `verifyWithAlternativeLLM`, and that fallback
is the rule the claim describes: false with no strong indicator, false
with a generic invoicing-tool term but none of the strong e-invoicing
vocabulary, false when only the title carries a strong indicator and the
content is shorter than 50 characters, true otherwise
(`verifySpecFallback`). -/
theorem verifyWithLLM_fallback_spec (outcome : LLMOutcome) (title content : String) :
    (outcome = .netError ∨ outcome = .httpError ∨ outcome = .apiFailure →
      verifyWithLLM outcome title content = verifyWithAlternativeLLM title content) ∧
    verifyWithAlternativeLLM title content = verifySpecFallback title content := by
  constructor
  · rintro (rfl | rfl | rfl) <;> rfl
  · unfold verifyWithAlternativeLLM verifySpecFallback
    by_cases hs : (strongIndicators.any fun ind =>
        strIncludes ((jsToLower (title ++ " " ++ content))) (jsToLower ind)) = true
    · have hlen : ¬((strongIndicators.filter fun ind =>
          strIncludes ((jsToLower (title ++ " " ++ content))) (jsToLower ind)).length = 0) := by
        rw [filter_length_zero_iff]
        simp [hs]
      simp only [if_neg hlen, hs, Bool.not_true, Bool.false_eq_true, if_false]
      rw [any_and_const]
    · have hfalse : (strongIndicators.any fun ind =>
          strIncludes ((jsToLower (title ++ " " ++ content))) (jsToLower ind)) = false := by
        simpa using hs
      have hlen : ((strongIndicators.filter fun ind =>
          strIncludes ((jsToLower (title ++ " " ++ content))) (jsToLower ind)).length = 0) :=
        (filter_length_zero_iff _ _).mpr hfalse
      simp [hlen, hfalse]

/-- Witness for C7 at a concrete input: a network error falls back to
the deterministic rule, which accepts a text with a strong indicator. -/
theorem verifyWithLLM_fallback_spec_witness :
    verifyWithLLM .netError "e-invoicing in Belgium"
        "peppol e-invoicing becomes mandatory for belgian companies" =
      verifyWithAlternativeLLM "e-invoicing in Belgium"
        "peppol e-invoicing becomes mandatory for belgian companies" ∧
    verifyWithAlternativeLLM "e-invoicing in Belgium"
        "peppol e-invoicing becomes mandatory for belgian companies" =
      verifySpecFallback "e-invoicing in Belgium"
        "peppol e-invoicing becomes mandatory for belgian companies" :=
  ⟨(verifyWithLLM_fallback_spec .netError "e-invoicing in Belgium"
      "peppol e-invoicing becomes mandatory for belgian companies").1 (Or.inl rfl),
   (verifyWithLLM_fallback_spec .netError "e-invoicing in Belgium"
      "peppol e-invoicing becomes mandatory for belgian companies").2⟩

/-! ## Claim C5: the primary keyword check is NOT whole-word aware -/

theorem keywords_ne_empty :
    (E_INVOICING_KEYWORDS.all fun kw => !((jsToLower kw).toList.isEmpty)) = true := by
  decide

/-- Counterexample to C5 as stated: `"publication"` is reported relevant
by `containsEInvoicingKeywords` although no keyword occurs in it as a
whole word and no regex pattern matches — the match is caused solely by
the keyword `"ubl"` occurring strictly inside the longer word, through
the plain-substring `includes` check that precedes the word-boundary
regex. -/
theorem containsEInvoicingKeywords_substring_cex :
    containsEInvoicingKeywords "publication" = true ∧
    strIncludes "publication" "ubl" = true ∧
    (E_INVOICING_KEYWORDS.all fun kw =>
      !(wholeWordMatch (jsToLower "publication") (jsToLower kw))) = true ∧
    (einvoicePatterns.all fun p => !(patTest p (jsToLower "publication"))) = true :=
  ⟨by decide, by decide, by decide, by decide⟩

/-- C5 amended: the primary relevance check is a case-insensitive
substring match — any keyword occurring anywhere in the lowercased text,
including strictly inside an unrelated longer word, makes the text
relevant (the per-keyword word-boundary regex is subsumed by the
`includes` check executed first, so whole-word awareness is not
enforced). -/
theorem containsEInvoicingKeywords_substring_admits (text kw : String)
    (hkw : kw ∈ E_INVOICING_KEYWORDS)
    (hsub : strIncludes (jsToLower text) (jsToLower kw) = true) :
    containsEInvoicingKeywords text = true := by
  have htext : ¬(text = "") := by
    intro h
    subst h
    have hne := List.all_eq_true.mp keywords_ne_empty kw hkw
    have hemp : ((jsToLower kw).toList).isEmpty = true := hsub
    have hnil : (jsToLower kw).toList = [] := by
      cases h : (jsToLower kw).toList with
      | nil => rfl
      | cons a l =>
        rw [h] at hemp
        simp at hemp
    rw [hemp] at hne
    simp at hne
  unfold containsEInvoicingKeywords
  rw [if_neg htext]
  have hany : (E_INVOICING_KEYWORDS.any fun keyword =>
      let lowerKeyword := jsToLower keyword
      strIncludes (jsToLower text) lowerKeyword ||
        wholeWordMatch (jsToLower text) lowerKeyword) = true :=
    List.any_eq_true.mpr ⟨kw, hkw, by simp [hsub]⟩
  simp [hany]

/-- Witness for the amended C5 at a concrete input: `"Republic Day"` is
relevant because its lowercase form contains the keyword `"ubl"` as a
substring (inside `republic`). -/
theorem containsEInvoicingKeywords_substring_admits_witness :
    containsEInvoicingKeywords "Republic Day" = true :=
  containsEInvoicingKeywords_substring_admits "Republic Day" "ubl" (by decide) (by decide)

/-! ## Claim C8: lemmas about the upsert store -/

theorem findRow_map_replace_ne (store : List PageRow) (r : PageRow) (u : String)
    (hne : r.page_url ≠ u) :
    findRow (store.map fun x => if x.page_url == r.page_url then r else x) u =
      findRow store u := by
  induction store with
  | nil => rfl
  | cons a t ih =>
    unfold findRow at ih ⊢
    rw [List.map_cons]
    by_cases ha : a.page_url = r.page_url
    · rw [if_pos (by simp [ha]),
        List.find?_cons_of_neg _ (by simp [hne]),
        List.find?_cons_of_neg _ (by simp [ha, hne])]
      exact ih
    · rw [if_neg (by simp [ha])]
      by_cases hau : a.page_url = u
      · rw [List.find?_cons_of_pos _ (by simp [hau]),
          List.find?_cons_of_pos _ (by simp [hau])]
      · rw [List.find?_cons_of_neg _ (by simp [hau]),
          List.find?_cons_of_neg _ (by simp [hau])]
        exact ih

theorem findRow_map_replace_eq (store : List PageRow) (r : PageRow)
    (hmem : (store.any fun x => x.page_url == r.page_url) = true) :
    findRow (store.map fun x => if x.page_url == r.page_url then r else x) r.page_url =
      some r := by
  induction store with
  | nil => simp at hmem
  | cons a t ih =>
    unfold findRow at ih ⊢
    rw [List.map_cons]
    by_cases ha : a.page_url = r.page_url
    · rw [if_pos (by simp [ha]), List.find?_cons_of_pos _ (by simp)]
    · have hmem' : (t.any fun x => x.page_url == r.page_url) = true := by
        rw [List.any_cons] at hmem
        rcases Bool.or_eq_true_iff.mp hmem with h | h
        · exact absurd (by simpa using h) ha
        · exact h
      rw [if_neg (by simp [ha]), List.find?_cons_of_neg _ (by simp [ha])]
      exact ih hmem'

theorem findRow_upsertRow (store : List PageRow) (r : PageRow) (u : String) :
    findRow (upsertRow store r) u =
      if r.page_url = u then some r else findRow store u := by
  unfold upsertRow
  by_cases hmem : (store.any fun x => x.page_url == r.page_url) = true
  · rw [if_pos hmem]
    by_cases hu : r.page_url = u
    · subst hu
      rw [if_pos rfl]
      exact findRow_map_replace_eq store r hmem
    · rw [if_neg hu]
      exact findRow_map_replace_ne store r u hu
  · rw [if_neg hmem]
    have hnone : findRow store r.page_url = none := by
      unfold findRow
      apply List.find?_eq_none.mpr
      intro x hx hc
      exact hmem (List.any_eq_true.mpr ⟨x, hx, hc⟩)
    by_cases hu : r.page_url = u
    · subst hu
      rw [if_pos rfl]
      unfold findRow at hnone ⊢
      rw [List.find?_append, hnone]
      rw [List.find?_cons_of_pos _ (by simp)]
      rfl
    · rw [if_neg hu]
      unfold findRow
      rw [List.find?_append]
      cases hfs : store.find? (fun x => x.page_url == u) with
      | some x => rfl
      | none =>
        rw [List.find?_cons_of_neg _ (by simp [hu])]
        rfl

theorem rowKeys_map_replace (store : List PageRow) (r : PageRow) :
    rowKeys (store.map fun x => if x.page_url == r.page_url then r else x) =
      rowKeys store := by
  unfold rowKeys
  rw [List.map_map]
  apply List.map_congr_left
  intro x _
  by_cases hx : x.page_url = r.page_url
  · simp [hx]
  · simp [hx]

theorem rowKeys_upsert_nodup (store : List PageRow) (r : PageRow)
    (h : (rowKeys store).Nodup) : (rowKeys (upsertRow store r)).Nodup := by
  unfold upsertRow
  by_cases hmem : (store.any fun x => x.page_url == r.page_url) = true
  · rw [if_pos hmem, rowKeys_map_replace]
    exact h
  · rw [if_neg hmem]
    have hnotin : r.page_url ∉ rowKeys store := by
      intro hin
      obtain ⟨x, hx, hkey⟩ := List.mem_map.mp hin
      exact hmem (List.any_eq_true.mpr ⟨x, hx, by simp [hkey]⟩)
    unfold rowKeys at h hnotin ⊢
    rw [List.map_append]
    simp only [List.map_cons, List.map_nil]
    rw [List.nodup_append]
    refine ⟨h, List.nodup_singleton _, ?_⟩
    intro a ha hb
    simp only [List.mem_singleton] at hb
    exact hnotin (hb ▸ ha)

theorem findRow_foldl_upsert (rs : List PageRow) (store : List PageRow) (u : String)
    (h : (rs.map fun r => r.page_url).Nodup) :
    findRow (rs.foldl upsertRow store) u =
      match rs.find? (fun r => r.page_url == u) with
      | some r => some r
      | none => findRow store u := by
  induction rs generalizing store with
  | nil => simp
  | cons r rs' ih =>
    have h' : (rs'.map fun r => r.page_url).Nodup := (List.nodup_cons.mp h).2
    have hnotin : r.page_url ∉ rs'.map (fun r => r.page_url) := (List.nodup_cons.mp h).1
    rw [List.foldl_cons, ih _ h']
    by_cases hu : r.page_url = u
    · subst hu
      have hnone : rs'.find? (fun x => x.page_url == r.page_url) = none := by
        apply List.find?_eq_none.mpr
        intro x hx hc
        exact hnotin (List.mem_map.mpr ⟨x, hx, by simpa using hc⟩)
      rw [hnone, List.find?_cons_of_pos _ (by simp), findRow_upsertRow, if_pos rfl]
    · rw [List.find?_cons_of_neg _ (by simp [hu])]
      cases hfs : rs'.find? (fun x => x.page_url == u) with
      | some x => rfl
      | none => rw [findRow_upsertRow, if_neg hu]

theorem rowKeys_foldl_nodup (rs : List PageRow) (store : List PageRow)
    (h : (rowKeys store).Nodup) : (rowKeys (rs.foldl upsertRow store)).Nodup := by
  induction rs generalizing store with
  | nil => exact h
  | cons r rs' ih => exact ih _ (rowKeys_upsert_nodup store r h)

theorem mem_iff_find?_key {α : Type} (key : α → String) (l : List α)
    (h : (l.map key).Nodup) (x : α) :
    x ∈ l ↔ l.find? (fun y => key y == key x) = some x := by
  induction l with
  | nil => simp
  | cons a t ih =>
    have h' : (t.map key).Nodup := (List.nodup_cons.mp h).2
    have hna : key a ∉ t.map key := (List.nodup_cons.mp h).1
    by_cases ha : key a = key x
    · rw [List.find?_cons_of_pos _ (by simp [ha]), List.mem_cons]
      constructor
      · rintro (rfl | hx)
        · rfl
        · exact absurd (List.mem_map.mpr ⟨x, hx, ha.symm⟩) hna
      · intro hs
        exact Or.inl (Option.some.inj hs).symm
    · rw [List.find?_cons_of_neg _ (by simp [ha]), List.mem_cons]
      constructor
      · rintro (rfl | hx)
        · exact absurd rfl ha
        · exact (ih h').mp hx
      · intro hs
        exact Or.inr ((ih h').mpr hs)

theorem saveInBatches_eq_foldl (fuel : Nat) :
    ∀ (store pages : List PageRow),
      saveInBatches fuel store pages = pages.foldl upsertRow store := by
  induction fuel with
  | zero =>
    intro store pages
    cases pages <;> rfl
  | succ n ih =>
    intro store pages
    cases pages with
    | nil => rfl
    | cons p ps =>
      show saveInBatches n (upsertBatch store ((p :: ps).take 500)) ((p :: ps).drop 500) =
        (p :: ps).foldl upsertRow store
      rw [ih]
      conv_rhs => rw [← List.take_append_drop 500 (p :: ps)]
      rw [List.foldl_append]
      rfl

theorem rowToPage_pageToRow (now : Int) (u : String) (m : CachedPage)
    (hwf : EntryWF (u, m)) : rowToPage (pageToRow now u m) = (u, m) := by
  obtain ⟨hurl, hstatus, hmod⟩ := hwf
  simp only at hurl hstatus hmod
  cases m with
  | mk url title lastScraped contentHash hasE postsCount lastModified httpStatus =>
    simp only at hurl hstatus hmod
    subst hurl
    unfold rowToPage pageToRow jsOrNull
    cases lastModified with
    | none => simp [hstatus]
    | some s =>
      have hs : ¬(s = "") := by
        intro h
        exact hmod (by rw [h])
      simp [hstatus, hs]

theorem find?_pagesOf (cm : CacheMap) (t : Int) (u : String) :
    (cm.map fun e => pageToRow t e.1 e.2).find? (fun r => r.page_url == u) =
      (cm.find? fun e => e.1 == u).map (fun e => pageToRow t e.1 e.2) := by
  induction cm with
  | nil => rfl
  | cons e l ih =>
    by_cases he : e.1 = u
    · simp only [List.map_cons]
      rw [List.find?_cons_of_pos _ (by simp [pageToRow, he]),
        List.find?_cons_of_pos _ (by simp [he])]
      rfl
    · simp only [List.map_cons]
      rw [List.find?_cons_of_neg _ (by simp [pageToRow, he]),
        List.find?_cons_of_neg _ (by simp [he])]
      exact ih

theorem rowKeys_pagesOf (cm : CacheMap) (t : Int) :
    rowKeys (cm.map fun e => pageToRow t e.1 e.2) = cm.map (fun e => e.1) := by
  unfold rowKeys
  rw [List.map_map]
  apply List.map_congr_left
  intro e _
  rfl

/-- C8: starting from an empty backing store, saving the same cache map
twice (at arbitrary times) yields a store whose loaded map is set-equal
to the saved map and whose rows are keyed uniquely by URL — the batched
upsert on `page_url` makes repeated saves idempotent. -/
theorem savePageCache_idempotent_roundtrip (cacheMap : CacheMap) (now now' : Int)
    (hkeys : (cacheMap.map fun e => e.1).Nodup)
    (hwf : ∀ e ∈ cacheMap, EntryWF e) :
    (∀ e : String × CachedPage,
      e ∈ loadPageCache (savePageCache (savePageCache [] cacheMap now) cacheMap now') ↔
        e ∈ cacheMap) ∧
    (rowKeys (savePageCache (savePageCache [] cacheMap now) cacheMap now')).Nodup := by
  have hsave : ∀ (st : List PageRow) (t : Int),
      savePageCache st cacheMap t =
        (cacheMap.map fun e => pageToRow t e.1 e.2).foldl upsertRow st := by
    intro st t
    unfold savePageCache
    exact saveInBatches_eq_foldl _ _ _
  have hpk : ∀ t : Int,
      ((cacheMap.map fun e => pageToRow t e.1 e.2).map fun r => r.page_url).Nodup := by
    intro t
    have hrk := rowKeys_pagesOf cacheMap t
    unfold rowKeys at hrk
    rw [hrk]
    exact hkeys
  have hfind : ∀ u,
      findRow (savePageCache (savePageCache [] cacheMap now) cacheMap now') u =
        (cacheMap.find? fun e => e.1 == u).map (fun e => pageToRow now' e.1 e.2) := by
    intro u
    rw [hsave, hsave]
    rw [findRow_foldl_upsert _ _ _ (hpk now')]
    rw [find?_pagesOf]
    cases hc : cacheMap.find? (fun e => e.1 == u) with
    | some a => rfl
    | none =>
      rw [findRow_foldl_upsert _ _ _ (hpk now)]
      rw [find?_pagesOf, hc]
      rfl
  have hnodup : (rowKeys (savePageCache (savePageCache [] cacheMap now) cacheMap now')).Nodup := by
    rw [hsave, hsave]
    apply rowKeys_foldl_nodup
    apply rowKeys_foldl_nodup
    simp [rowKeys]
  have hnodup' : ((savePageCache (savePageCache [] cacheMap now) cacheMap now').map
      fun r => r.page_url).Nodup := hnodup
  refine ⟨?_, hnodup⟩
  intro e
  unfold loadPageCache
  constructor
  · intro hmem
    obtain ⟨r, hr, hre⟩ := List.mem_map.mp hmem
    have hfr : findRow (savePageCache (savePageCache [] cacheMap now) cacheMap now')
        r.page_url = some r := by
      exact (mem_iff_find?_key (fun r => r.page_url)
        (savePageCache (savePageCache [] cacheMap now) cacheMap now') hnodup' r).mp hr
    rw [hfind r.page_url] at hfr
    obtain ⟨a, ha, har⟩ := Option.map_eq_some'.mp hfr
    have hael : a ∈ cacheMap := List.mem_of_find?_eq_some ha
    have hra : rowToPage r = a := by
      rw [← har]
      have := rowToPage_pageToRow now' a.1 a.2 (hwf a hael)
      rw [this]
    rw [← hre, hra]
    exact hael
  · intro hmem
    have hf : cacheMap.find? (fun y => y.1 == e.1) = some e :=
      (mem_iff_find?_key (fun y => y.1) cacheMap hkeys e).mp hmem
    have hfr : findRow (savePageCache (savePageCache [] cacheMap now) cacheMap now') e.1 =
        some (pageToRow now' e.1 e.2) := by
      rw [hfind e.1, hf]
      rfl
    have hrmem : pageToRow now' e.1 e.2 ∈
        savePageCache (savePageCache [] cacheMap now) cacheMap now' := by
      apply (mem_iff_find?_key (fun r => r.page_url)
        (savePageCache (savePageCache [] cacheMap now) cacheMap now') hnodup' _).mpr
      exact hfr
    have hre : rowToPage (pageToRow now' e.1 e.2) = e := by
      rw [rowToPage_pageToRow now' e.1 e.2 (hwf e hmem)]
    exact List.mem_map.mpr ⟨_, hrmem, hre⟩

/-- Witness for C8 at a concrete input: a one-entry cache map survives a
double save followed by a load. -/
theorem savePageCache_idempotent_roundtrip_witness :
    ("u", { url := "u", title := "t", lastScraped := 5, contentHash := "h",
            hasEInvoicingContent := true, postsCount := 1, lastModified := none,
            httpStatus := 200 }) ∈
      loadPageCache (savePageCache (savePageCache []
        [("u", { url := "u", title := "t", lastScraped := 5, contentHash := "h",
                 hasEInvoicingContent := true, postsCount := 1, lastModified := none,
                 httpStatus := 200 })] 1)
        [("u", { url := "u", title := "t", lastScraped := 5, contentHash := "h",
                 hasEInvoicingContent := true, postsCount := 1, lastModified := none,
                 httpStatus := 200 })] 2) :=
  ((savePageCache_idempotent_roundtrip
      [("u", { url := "u", title := "t", lastScraped := 5, contentHash := "h",
               hasEInvoicingContent := true, postsCount := 1, lastModified := none,
               httpStatus := 200 })] 1 2 (by decide)
      (by
        intro e he
        rw [List.mem_singleton] at he
        subst he
        exact ⟨rfl, by decide, by decide⟩)).1 _).mpr (by decide)

/-! ## Claim C9: lemmas about the crawler -/

theorem enqueueLinks_spec (visited : List String) (d1 : Nat) (al₀ : List String) :
    ∀ (ls al : List String) (pushed : List (String × Nat)),
      (∀ a ∈ al₀, a ∈ al) →
      (∀ x ∈ pushed, x.1 ∈ al) → al.Nodup → (pushed.map Prod.fst).Nodup →
      ((∀ a ∈ al, a ∈ (enqueueLinks visited d1 ls al pushed).1) ∧
        (enqueueLinks visited d1 ls al pushed).1.Nodup ∧
        (∀ x ∈ (enqueueLinks visited d1 ls al pushed).2,
          x.1 ∈ (enqueueLinks visited d1 ls al pushed).1) ∧
        ((enqueueLinks visited d1 ls al pushed).2.map Prod.fst).Nodup ∧
        (∀ x ∈ (enqueueLinks visited d1 ls al pushed).2,
          x ∈ pushed ∨ (x.2 = d1 ∧ x.1 ∉ al₀ ∧ x.1 ∉ visited))) := by
  intro ls
  induction ls with
  | nil =>
    intro al pushed hsub hpu hal hpn
    exact ⟨fun a ha => ha, hal, hpu, hpn, fun x hx => Or.inl hx⟩
  | cons link ls' ih =>
    intro al pushed hsub hpu hal hpn
    by_cases hskip : (visited.contains link || al.contains link) = true
    · simp only [enqueueLinks, hskip, if_true]
      exact ih al pushed hsub hpu hal hpn
    · have hlv : visited.contains link = false ∧ al.contains link = false := by
        constructor
        · cases h1 : visited.contains link
          · rfl
          · exact absurd (Bool.or_eq_true_iff.mpr (Or.inl h1)) hskip
        · cases h2 : al.contains link
          · rfl
          · exact absurd (Bool.or_eq_true_iff.mpr (Or.inr h2)) hskip
      have hlinkal : link ∉ al := by
        intro hmem
        have hc : al.contains link = true := List.elem_eq_true_of_mem hmem
        rw [hlv.2] at hc
        exact absurd hc (by simp)
      have hlinkv : link ∉ visited := by
        intro hmem
        have hc : visited.contains link = true := List.elem_eq_true_of_mem hmem
        rw [hlv.1] at hc
        exact absurd hc (by simp)
      simp only [enqueueLinks, hskip, if_false]
      have hsub' : ∀ a ∈ al₀, a ∈ al ++ [link] :=
        fun a ha => List.mem_append_left _ (hsub a ha)
      have hpu' : ∀ x ∈ pushed ++ [(link, d1)], x.1 ∈ al ++ [link] := by
        intro x hx
        rcases List.mem_append.mp hx with hx | hx
        · exact List.mem_append_left _ (hpu x hx)
        · simp only [List.mem_singleton] at hx
          subst hx
          exact List.mem_append_right _ (by simp)
      have hal' : (al ++ [link]).Nodup := by
        rw [List.nodup_append]
        refine ⟨hal, List.nodup_singleton _, ?_⟩
        intro a ha hb
        simp only [List.mem_singleton] at hb
        exact hlinkal (hb ▸ ha)
      have hpn' : ((pushed ++ [(link, d1)]).map Prod.fst).Nodup := by
        rw [List.map_append, List.nodup_append]
        refine ⟨hpn, by simp, ?_⟩
        intro a ha hb
        simp only [List.map_cons, List.map_nil, List.mem_singleton] at hb
        subst hb
        obtain ⟨x, hx, hxa⟩ := List.mem_map.mp ha
        exact hlinkal (hxa ▸ hpu x hx)
      obtain ⟨A, B, C, D, E⟩ := ih (al ++ [link]) (pushed ++ [(link, d1)]) hsub' hpu' hal' hpn'
      refine ⟨fun a ha => A a (List.mem_append_left _ ha), B, C, D, ?_⟩
      intro x hx
      rcases E x hx with hx' | hx'
      · rcases List.mem_append.mp hx' with hx'' | hx''
        · exact Or.inl hx''
        · simp only [List.mem_singleton] at hx''
          subst hx''
          exact Or.inr ⟨rfl, fun hc => hlinkal (hsub _ hc), hlinkv⟩
      · exact Or.inr ⟨hx'.1, fun hc => hx'.2.1 hc, hx'.2.2⟩

/-- The loop on an empty frontier is the identity, whatever the fuel. -/
theorem crawlLoop_nil (fetchLinks : String → Option (List String)) (maxDepth fuel : Nat)
    (s : CrawlState) (h : s.toVisit = []) :
    crawlLoop fetchLinks maxDepth fuel s = s := by
  cases fuel with
  | zero => rfl
  | succ n => simp only [crawlLoop, h]

/-- One loop iteration that skips the dequeued entry (already visited or
too deep). -/
theorem crawlLoop_skip (fetchLinks : String → Option (List String)) (maxDepth fuel : Nat)
    (s : CrawlState) (url : String) (depth : Nat) (rest : List (String × Nat))
    (htv : s.toVisit = (url, depth) :: rest)
    (hguard : (s.visited.contains url || decide (depth > maxDepth)) = true) :
    crawlLoop fetchLinks maxDepth (fuel + 1) s =
      crawlLoop fetchLinks maxDepth fuel { s with toVisit := rest } := by
  simp only [crawlLoop, htv]
  rw [if_pos hguard]

/-- One loop iteration that processes the dequeued entry with a
successful fetch. -/
theorem crawlLoop_process (fetchLinks : String → Option (List String)) (maxDepth fuel : Nat)
    (s : CrawlState) (url : String) (depth : Nat) (rest : List (String × Nat))
    (links : List String) (htv : s.toVisit = (url, depth) :: rest)
    (hguard : (s.visited.contains url || decide (depth > maxDepth)) = false)
    (hf : fetchLinks url = some links) :
    crawlLoop fetchLinks maxDepth (fuel + 1) s =
      crawlLoop fetchLinks maxDepth fuel
        { visited := s.visited ++ [url]
          toVisit := rest ++
            (enqueueLinks (s.visited ++ [url]) (depth + 1) links s.allLinks []).2
          allLinks := (enqueueLinks (s.visited ++ [url]) (depth + 1) links s.allLinks []).1
          fetchedLog := s.fetchedLog ++ [(url, depth)]
          enqueuedLog := s.enqueuedLog ++
            (enqueueLinks (s.visited ++ [url]) (depth + 1) links s.allLinks []).2 } := by
  simp only [crawlLoop, htv]
  rw [if_neg (by rw [hguard]; simp), hf]

theorem crawlLoop_inv (fetchLinks : String → Option (List String)) (maxDepth : Nat) :
    ∀ (fuel : Nat) (s : CrawlState), CrawlInv maxDepth s →
      CrawlInv maxDepth (crawlLoop fetchLinks maxDepth fuel s) := by
  intro fuel
  induction fuel with
  | zero => exact fun s h => h
  | succ n ih =>
    intro s h
    obtain ⟨h1, h2, h3, h4, h5, h6, h7⟩ := h
    cases htv : s.toVisit with
    | nil =>
      rw [crawlLoop_nil _ _ _ _ htv]
      exact ⟨h1, h2, h3, h4, h5, h6, h7⟩
    | cons hd rest =>
      obtain ⟨url, depth⟩ := hd
      by_cases hskip : (s.visited.contains url || decide (depth > maxDepth)) = true
      · rw [crawlLoop_skip fetchLinks maxDepth n s url depth rest htv hskip]
        exact ih _ ⟨h1, h2, h3, h4, h5, h6, h7⟩
      · have hng : s.visited.contains url = false ∧ decide (depth > maxDepth) = false := by
          constructor
          · cases hv : s.visited.contains url
            · rfl
            · exact absurd (Bool.or_eq_true_iff.mpr (Or.inl hv)) hskip
          · cases hdp : decide (depth > maxDepth)
            · rfl
            · exact absurd (Bool.or_eq_true_iff.mpr (Or.inr hdp)) hskip
        have hguard : (s.visited.contains url || decide (depth > maxDepth)) = false := by
          rw [hng.1, hng.2]
          rfl
        have hdle : depth ≤ maxDepth := by
          have := hng.2
          rw [decide_eq_false_iff_not] at this
          omega
        have hunv : url ∉ s.visited := by
          intro hmem
          have hc : s.visited.contains url = true := List.elem_eq_true_of_mem hmem
          rw [hng.1] at hc
          exact absurd hc (by simp)
        have hv1 : (s.visited ++ [url]).Nodup := by
          rw [List.nodup_append]
          refine ⟨h1, List.nodup_singleton _, ?_⟩
          intro a ha hb
          simp only [List.mem_singleton] at hb
          exact hunv (hb ▸ ha)
        have hv2 : (s.fetchedLog ++ [(url, depth)]).map Prod.fst = s.visited ++ [url] := by
          rw [List.map_append, h2]
          rfl
        have hv3 : ∀ p ∈ s.fetchedLog ++ [(url, depth)], p.2 ≤ maxDepth := by
          intro p hp
          rcases List.mem_append.mp hp with hp | hp
          · exact h3 p hp
          · simp only [List.mem_singleton] at hp
            subst hp
            exact hdle
        cases hf : fetchLinks url with
        | none =>
          have hstep : crawlLoop fetchLinks maxDepth (n + 1) s =
              crawlLoop fetchLinks maxDepth n
                { s with
                  visited := s.visited ++ [url]
                  toVisit := rest
                  fetchedLog := s.fetchedLog ++ [(url, depth)] } := by
            simp only [crawlLoop, htv]
            rw [if_neg (by rw [hguard]; simp), hf]
          rw [hstep]
          exact ih _ ⟨hv1, hv2, hv3, h4, h5, h6, fun q hq =>
            have ⟨p, hp, hpd⟩ := h7 q hq
            ⟨p, List.mem_append_left _ hp, hpd⟩⟩
        | some links =>
          rw [crawlLoop_process fetchLinks maxDepth n s url depth rest links htv hguard hf]
          obtain ⟨A, B, C, D, E⟩ := enqueueLinks_spec (s.visited ++ [url]) (depth + 1)
            s.allLinks links s.allLinks [] (fun a ha => ha) (by simp) h6 (by simp)
          apply ih
          refine ⟨hv1, hv2, hv3, ?_, ?_, B, ?_⟩
          · rw [List.map_append, List.nodup_append]
            refine ⟨h4, D, ?_⟩
            intro a ha hb
            obtain ⟨q, hq, hqa⟩ := List.mem_map.mp ha
            obtain ⟨x, hx, hxa⟩ := List.mem_map.mp hb
            rcases E x hx with hx' | hx'
            · cases hx'
            · exact hx'.2.1 (hxa ▸ hqa ▸ h5 q hq)
          · intro q hq
            rcases List.mem_append.mp hq with hq | hq
            · exact A q.1 (h5 q hq)
            · exact C q hq
          · intro q hq
            rcases List.mem_append.mp hq with hq | hq
            · have ⟨p, hp, hpd⟩ := h7 q hq
              exact ⟨p, List.mem_append_left _ hp, hpd⟩
            · rcases E q hq with hq' | hq'
              · cases hq'
              · exact ⟨(url, depth), List.mem_append_right _ (by simp), hq'.1⟩

/-- The crawler starts in the chain state `0` on the chain site. -/
theorem crawlWebsite_chain_init (N fuel : Nat) :
    crawlWebsite chainFetch "a" N fuel = crawlLoop chainFetch N fuel (chainState 0) := rfl

theorem chainUrl_length (k : Nat) : (chainUrl k).length = k + 1 := by
  simp [chainUrl, String.length]

theorem chainUrl_inj {i j : Nat} (h : chainUrl i = chainUrl j) : i = j := by
  have hl := congrArg String.length h
  rw [chainUrl_length, chainUrl_length] at hl
  omega

theorem contains_map_chainUrl (l : List Nat) (m : Nat) :
    ((l.map chainUrl).contains (chainUrl m)) = decide (m ∈ l) := by
  induction l with
  | nil => simp
  | cons a t ih =>
    simp only [List.map_cons, List.contains_cons, ih]
    by_cases hm : m = a
    · simp [hm]
    · have hne : (chainUrl m == chainUrl a) = false := by
        apply beq_eq_false_iff_ne.mpr
        intro hc
        exact hm (chainUrl_inj hc)
      simp [hne, hm]

theorem chainUrl_succ (k : Nat) : chainUrl k ++ "x" = chainUrl (k + 1) := by
  show String.mk (('a' :: List.replicate k 'x') ++ ['x']) =
    String.mk ('a' :: List.replicate (k + 1) 'x')
  rw [List.replicate_succ' k 'x']
  rfl

/-- One full iteration of the loop on the chain site: processing the
frontier page `a x^k` yields the chain state `k + 1`. -/
theorem chainStep (N k : Nat) (hk : k ≤ N) (fuel : Nat) :
    crawlLoop chainFetch N (fuel + 1) (chainState k) =
      crawlLoop chainFetch N fuel (chainState (k + 1)) := by
  have hguard : ((chainState k).visited.contains (chainUrl k) || decide (k > N)) = false := by
    show (((List.range k).map chainUrl).contains (chainUrl k) || decide (k > N)) = false
    rw [contains_map_chainUrl]
    have h1 : decide (k ∈ List.range k) = false := by simp
    have h2 : decide (k > N) = false := by
      rw [decide_eq_false_iff_not]
      omega
    rw [h1, h2]
    rfl
  have hf : chainFetch (chainUrl k) = some [chainUrl (k + 1)] := by
    show some [chainUrl k ++ "x"] = some [chainUrl (k + 1)]
    rw [chainUrl_succ]
  rw [crawlLoop_process chainFetch N fuel (chainState k) (chainUrl k) k []
    [chainUrl (k + 1)] rfl hguard hf]
  have hvis : (chainState k).visited ++ [chainUrl k] = (List.range (k + 1)).map chainUrl := by
    show ((List.range k).map chainUrl) ++ [chainUrl k] = _
    rw [List.range_succ, List.map_append]
    rfl
  have hc1 : ((chainState k).visited ++ [chainUrl k]).contains (chainUrl (k + 1)) = false := by
    rw [hvis, contains_map_chainUrl]
    simp
  have hc2 : (chainState k).allLinks.contains (chainUrl (k + 1)) = false := by
    show ((List.range (k + 1)).map chainUrl).contains (chainUrl (k + 1)) = false
    rw [contains_map_chainUrl]
    simp
  have henq : enqueueLinks ((chainState k).visited ++ [chainUrl k]) (k + 1)
      [chainUrl (k + 1)] (chainState k).allLinks [] =
      ((chainState k).allLinks ++ [chainUrl (k + 1)], [(chainUrl (k + 1), k + 1)]) := by
    simp only [enqueueLinks, hc1, hc2, Bool.or_self, Bool.false_eq_true, if_false]
    rfl
  rw [henq]
  congr 1
  show ({ visited := (chainState k).visited ++ [chainUrl k]
          toVisit := [] ++ [(chainUrl (k + 1), k + 1)]
          allLinks := (chainState k).allLinks ++ [chainUrl (k + 1)]
          fetchedLog := (chainState k).fetchedLog ++ [(chainUrl k, k)]
          enqueuedLog := (chainState k).enqueuedLog ++ [(chainUrl (k + 1), k + 1)] } :
      CrawlState) = chainState (k + 1)
  simp only [chainState, CrawlState.mk.injEq]
  refine ⟨?_, by simp, ?_, ?_, ?_⟩
  · rw [List.range_succ, List.map_append]
    rfl
  · conv_rhs => rw [List.range_succ]
    rw [List.map_append]
    rfl
  · rw [List.range_succ, List.map_append]
    rfl
  · rw [List.range_succ, List.map_append]
    rfl

/-- Running the loop from chain state `k` for `j` further iterations
reaches chain state `k + j`. -/
theorem chainRun (N : Nat) :
    ∀ (j k fuel : Nat), k + j ≤ N + 1 →
      crawlLoop chainFetch N (j + fuel) (chainState k) =
        crawlLoop chainFetch N fuel (chainState (k + j)) := by
  intro j
  induction j with
  | zero =>
    intro k fuel _
    rw [Nat.zero_add, Nat.add_zero]
  | succ m ih =>
    intro k fuel hkm
    have hk : k ≤ N := by omega
    calc crawlLoop chainFetch N (m + 1 + fuel) (chainState k)
        = crawlLoop chainFetch N (m + fuel + 1) (chainState k) := by ring_nf
      _ = crawlLoop chainFetch N (m + fuel) (chainState (k + 1)) := chainStep N k hk (m + fuel)
      _ = crawlLoop chainFetch N fuel (chainState (k + 1 + m)) := ih (k + 1) fuel (by omega)
      _ = crawlLoop chainFetch N fuel (chainState (k + (m + 1))) := by ring_nf

/-- C9: for every fetcher, start URL, depth bound and fuel, the crawler
(1) never processes a URL twice (the processed log's URLs are exactly the
duplicate-free visited list), (2) never processes a frontier entry
dequeued with depth above `maxDepth`, (3) enqueues each URL at most once,
always at a processed parent's depth plus one; and (4) in full-crawl mode
there is no fixed page cap: for every bound `N` the chain-shaped site
crawled with `maxDepth = N` visits exactly `N + 1` pages. -/
theorem crawlWebsite_bfs_properties :
    (∀ (fetchLinks : String → Option (List String)) (startUrl : String) (maxDepth fuel : Nat),
      (crawlWebsite fetchLinks startUrl maxDepth fuel).visited.Nodup ∧
      (crawlWebsite fetchLinks startUrl maxDepth fuel).fetchedLog.map Prod.fst =
        (crawlWebsite fetchLinks startUrl maxDepth fuel).visited ∧
      (∀ p ∈ (crawlWebsite fetchLinks startUrl maxDepth fuel).fetchedLog, p.2 ≤ maxDepth) ∧
      ((crawlWebsite fetchLinks startUrl maxDepth fuel).enqueuedLog.map Prod.fst).Nodup ∧
      (∀ q ∈ (crawlWebsite fetchLinks startUrl maxDepth fuel).enqueuedLog,
        ∃ p ∈ (crawlWebsite fetchLinks startUrl maxDepth fuel).fetchedLog,
          q.2 = p.2 + 1)) ∧
    (∀ N : Nat, (crawlWebsite chainFetch "a" N (N + 3)).visited.length = N + 1) := by
  constructor
  · intro fetchLinks startUrl maxDepth fuel
    have hinv : CrawlInv maxDepth (crawlWebsite fetchLinks startUrl maxDepth fuel) := by
      apply crawlLoop_inv
      exact ⟨List.nodup_nil, rfl, by simp, by simp, by simp, List.nodup_singleton _, by simp⟩
    obtain ⟨h1, h2, h3, h4, _, _, h7⟩ := hinv
    exact ⟨h1, h2, h3, h4, h7⟩
  · intro N
    rw [crawlWebsite_chain_init]
    have hfuel : N + 3 = (N + 1) + 2 := by omega
    rw [hfuel, chainRun N (N + 1) 0 2 (by omega), Nat.zero_add]
    have hguard : ((chainState (N + 1)).visited.contains (chainUrl (N + 1)) ||
        decide (N + 1 > N)) = true := by
      have : decide (N + 1 > N) = true := by simp
      rw [this]
      simp
    have hskip : crawlLoop chainFetch N (1 + 1) (chainState (N + 1)) =
        crawlLoop chainFetch N 1 { chainState (N + 1) with toVisit := [] } :=
      crawlLoop_skip chainFetch N 1 (chainState (N + 1)) (chainUrl (N + 1)) (N + 1) []
        rfl hguard
    rw [show (2 : Nat) = 1 + 1 from rfl, hskip, crawlLoop_nil _ _ _ _ rfl]
    show ((List.range (N + 1)).map chainUrl).length = N + 1
    rw [List.length_map, List.length_range]

/-- Witness for C9 at a concrete input: the chain crawl with depth 3
visits pages once each, the first enqueued page sits one level below a
processed parent, and the page count exceeds 3 (no fixed cap). -/
theorem crawlWebsite_bfs_properties_witness :
    (crawlWebsite chainFetch "a" 3 6).visited.Nodup ∧
    (("ax", 1) ∈ (crawlWebsite chainFetch "a" 3 6).enqueuedLog ∧
      ∃ p ∈ (crawlWebsite chainFetch "a" 3 6).fetchedLog, (1 : Nat) = p.2 + 1) ∧
    3 < (crawlWebsite chainFetch "a" 3 (3 + 3)).visited.length :=
  ⟨(crawlWebsite_bfs_properties.1 chainFetch "a" 3 6).1,
   ⟨by decide,
    (crawlWebsite_bfs_properties.1 chainFetch "a" 3 6).2.2.2.2 ("ax", 1) (by decide)⟩,
   by rw [crawlWebsite_bfs_properties.2 3]; omega⟩

/-! ## Claim C6: lemmas about the extraction pipeline -/

theorem not_not_eq_true {b : Bool} (h : ¬((!b) = true)) : b = true := by
  cases b
  · simp at h
  · rfl

theorem parseLinksPass1_spec (resolve : String → String)
    (oracle : String → String → String → Bool) :
    ∀ (ls : List DomLink) (seen : List String) (acc : ParseAcc),
      ((∀ c ∈ acc.calls, c ∈ (parseLinksPass1 resolve oracle ls seen acc).calls) ∧
        (∀ c ∈ (parseLinksPass1 resolve oracle ls seen acc).calls,
          c ∈ acc.calls ∨ containsEInvoicingKeywords c.srcText = true) ∧
        (∀ p ∈ (parseLinksPass1 resolve oracle ls seen acc).posts,
          p ∈ acc.posts ∨ ∃ c ∈ (parseLinksPass1 resolve oracle ls seen acc).calls,
            p.title = c.title ∧ p.content = c.content ∧ p.url = c.url ∧
            containsEInvoicingKeywords c.srcText = true ∧
            oracle c.title c.content c.url = true)) := by
  intro ls
  induction ls with
  | nil =>
    intro seen acc
    exact ⟨fun c hc => hc, fun c hc => Or.inl hc, fun p hp => Or.inl hp⟩
  | cons l rest ih =>
    intro seen acc
    simp only [parseLinksPass1]
    split
    · exact ih seen acc
    · split
      · exact ih seen acc
      · split
        · exact ih seen acc
        · split
          case isTrue hk =>
            split
            · exact ih (seen ++ [l.href]) acc
            · split
              case isTrue ho =>
                obtain ⟨M, C, P⟩ := ih (seen ++ [l.href])
                  { posts := acc.posts ++
                      [{ url := fullUrlOf resolve l.href
                         title := jsOrS (jsTrim l.titleText)
                           (jsOrS (jsTrim l.linkText) "E-Invoicing Related Content")
                         content := jsTrim (trunc500 (jsOrS l.contextText l.linkText)) }]
                    calls := acc.calls ++
                      [{ srcText := l.linkText ++ " " ++ l.contextText
                         title := jsOrS (jsTrim l.titleText)
                           (jsOrS (jsTrim l.linkText) "E-Invoicing Related Content")
                         content := jsTrim (trunc500 (jsOrS l.contextText l.linkText))
                         url := fullUrlOf resolve l.href }] }
                refine ⟨fun c hc => M c (List.mem_append_left _ hc), ?_, ?_⟩
                · intro c hc
                  rcases C c hc with hc' | hp
                  · rcases List.mem_append.mp hc' with hc'' | hc''
                    · exact Or.inl hc''
                    · simp only [List.mem_singleton] at hc''
                      subst hc''
                      exact Or.inr hk
                  · exact Or.inr hp
                · intro p hp
                  rcases P p hp with hp' | hp'
                  · rcases List.mem_append.mp hp' with hp'' | hp''
                    · exact Or.inl hp''
                    · simp only [List.mem_singleton] at hp''
                      subst hp''
                      exact Or.inr ⟨OracleCall.mk (l.linkText ++ " " ++ l.contextText)
                        (jsOrS (jsTrim l.titleText)
                          (jsOrS (jsTrim l.linkText) "E-Invoicing Related Content"))
                        (jsTrim (trunc500 (jsOrS l.contextText l.linkText)))
                        (fullUrlOf resolve l.href),
                        M _ (List.mem_append_right _ (by simp)), rfl, rfl, rfl, hk, ho⟩
                  · exact Or.inr hp'
              case isFalse ho =>
                obtain ⟨M, C, P⟩ := ih (seen ++ [l.href])
                  { acc with calls := acc.calls ++
                      [{ srcText := l.linkText ++ " " ++ l.contextText
                         title := jsOrS (jsTrim l.titleText)
                           (jsOrS (jsTrim l.linkText) "E-Invoicing Related Content")
                         content := jsTrim (trunc500 (jsOrS l.contextText l.linkText))
                         url := fullUrlOf resolve l.href }] }
                refine ⟨fun c hc => M c (List.mem_append_left _ hc), ?_, ?_⟩
                · intro c hc
                  rcases C c hc with hc' | hp
                  · rcases List.mem_append.mp hc' with hc'' | hc''
                    · exact Or.inl hc''
                    · simp only [List.mem_singleton] at hc''
                      subst hc''
                      exact Or.inr hk
                  · exact Or.inr hp
                · exact P
          case isFalse hk =>
            exact ih (seen ++ [l.href]) acc

theorem parseElements_spec (resolve : String → String)
    (oracle : String → String → String → Bool) :
    ∀ (es : List DomElement) (acc : ParseAcc),
      ((∀ c ∈ acc.calls, c ∈ (parseElements resolve oracle es acc).calls) ∧
        (∀ c ∈ (parseElements resolve oracle es acc).calls,
          c ∈ acc.calls ∨ containsEInvoicingKeywords c.srcText = true) ∧
        (∀ p ∈ (parseElements resolve oracle es acc).posts,
          p ∈ acc.posts ∨ ∃ c ∈ (parseElements resolve oracle es acc).calls,
            p.title = c.title ∧ p.content = c.content ∧ p.url = c.url ∧
            containsEInvoicingKeywords c.srcText = true ∧
            oracle c.title c.content c.url = true)) := by
  intro es
  induction es with
  | nil =>
    intro acc
    exact ⟨fun c hc => hc, fun c hc => Or.inl hc, fun p hp => Or.inl hp⟩
  | cons e rest ih =>
    intro acc
    simp only [parseElements]
    split
    · exact ih acc
    · split
      case isTrue hnk =>
        exact ih acc
      case isFalse hnk =>
        have hk : containsEInvoicingKeywords (jsTrim e.titleText ++ " " ++ e.elementText) =
            true := not_not_eq_true hnk
        split
        · exact ih acc
        · split
          case isTrue ho =>
            obtain ⟨M, C, P⟩ := ih
              { posts := acc.posts ++
                  [{ url := match e.linkHref with
                       | none => ""
                       | some h => if h ≠ "" && !jsStartsWith h "http" then resolve h else h
                     title := jsTrim e.titleText
                     content := jsTrim (trunc500 e.contentText) }]
                calls := acc.calls ++
                  [{ srcText := jsTrim e.titleText ++ " " ++ e.elementText
                     title := jsTrim e.titleText
                     content := jsTrim (trunc500 e.contentText)
                     url := match e.linkHref with
                       | none => ""
                       | some h => if h ≠ "" && !jsStartsWith h "http" then resolve h
                         else h }] }
            refine ⟨fun c hc => M c (List.mem_append_left _ hc), ?_, ?_⟩
            · intro c hc
              rcases C c hc with hc' | hp
              · rcases List.mem_append.mp hc' with hc'' | hc''
                · exact Or.inl hc''
                · simp only [List.mem_singleton] at hc''
                  subst hc''
                  exact Or.inr hk
              · exact Or.inr hp
            · intro p hp
              rcases P p hp with hp' | hp'
              · rcases List.mem_append.mp hp' with hp'' | hp''
                · exact Or.inl hp''
                · simp only [List.mem_singleton] at hp''
                  subst hp''
                  exact Or.inr ⟨OracleCall.mk (jsTrim e.titleText ++ " " ++ e.elementText)
                    (jsTrim e.titleText) (jsTrim (trunc500 e.contentText))
                    (match e.linkHref with
                      | none => ""
                      | some h => if h ≠ "" && !jsStartsWith h "http" then resolve h else h),
                    M _ (List.mem_append_right _ (by simp)), rfl, rfl, rfl, hk, ho⟩
              · exact Or.inr hp'
          case isFalse ho =>
            obtain ⟨M, C, P⟩ := ih
              { acc with calls := acc.calls ++
                  [{ srcText := jsTrim e.titleText ++ " " ++ e.elementText
                     title := jsTrim e.titleText
                     content := jsTrim (trunc500 e.contentText)
                     url := match e.linkHref with
                       | none => ""
                       | some h => if h ≠ "" && !jsStartsWith h "http" then resolve h
                         else h }] }
            refine ⟨fun c hc => M c (List.mem_append_left _ hc), ?_, ?_⟩
            · intro c hc
              rcases C c hc with hc' | hp
              · rcases List.mem_append.mp hc' with hc'' | hc''
                · exact Or.inl hc''
                · simp only [List.mem_singleton] at hc''
                  subst hc''
                  exact Or.inr hk
              · exact Or.inr hp
            · exact P

theorem parseLinksPass2_spec (resolve : String → String)
    (oracle : String → String → String → Bool) :
    ∀ (ls : List DomLink) (acc : ParseAcc),
      ((∀ c ∈ acc.calls, c ∈ (parseLinksPass2 resolve oracle ls acc).calls) ∧
        (∀ c ∈ (parseLinksPass2 resolve oracle ls acc).calls,
          c ∈ acc.calls ∨ containsEInvoicingKeywords c.srcText = true) ∧
        (∀ p ∈ (parseLinksPass2 resolve oracle ls acc).posts,
          p ∈ acc.posts ∨ ∃ c ∈ (parseLinksPass2 resolve oracle ls acc).calls,
            p.title = c.title ∧ p.content = c.content ∧ p.url = c.url ∧
            containsEInvoicingKeywords c.srcText = true ∧
            oracle c.title c.content c.url = true)) := by
  intro ls
  induction ls with
  | nil =>
    intro acc
    exact ⟨fun c hc => hc, fun c hc => Or.inl hc, fun p hp => Or.inl hp⟩
  | cons l rest ih =>
    intro acc
    simp only [parseLinksPass2]
    split
    · exact ih acc
    · split
      case isTrue hnk =>
        exact ih acc
      case isFalse hnk =>
        have hk : containsEInvoicingKeywords (l.linkText ++ " " ++ l.contextText) = true :=
          not_not_eq_true hnk
        split
        · exact ih acc
        · split
          · exact ih acc
          · split
            case isTrue ho =>
              obtain ⟨M, C, P⟩ := ih
                { posts := acc.posts ++
                    [{ url := fullUrlOf resolve l.href
                       title := jsOrS (jsTrim l.titleText) (jsTrim l.linkText)
                       content := jsTrim (trunc500 (jsOrS l.contextText l.linkText)) }]
                  calls := acc.calls ++
                    [{ srcText := l.linkText ++ " " ++ l.contextText
                       title := jsOrS (jsTrim l.titleText) (jsTrim l.linkText)
                       content := jsTrim (trunc500 (jsOrS l.contextText l.linkText))
                       url := fullUrlOf resolve l.href }] }
              refine ⟨fun c hc => M c (List.mem_append_left _ hc), ?_, ?_⟩
              · intro c hc
                rcases C c hc with hc' | hp
                · rcases List.mem_append.mp hc' with hc'' | hc''
                  · exact Or.inl hc''
                  · simp only [List.mem_singleton] at hc''
                    subst hc''
                    exact Or.inr hk
                · exact Or.inr hp
              · intro p hp
                rcases P p hp with hp' | hp'
                · rcases List.mem_append.mp hp' with hp'' | hp''
                  · exact Or.inl hp''
                  · simp only [List.mem_singleton] at hp''
                    subst hp''
                    exact Or.inr ⟨OracleCall.mk (l.linkText ++ " " ++ l.contextText)
                      (jsOrS (jsTrim l.titleText) (jsTrim l.linkText))
                      (jsTrim (trunc500 (jsOrS l.contextText l.linkText)))
                      (fullUrlOf resolve l.href),
                      M _ (List.mem_append_right _ (by simp)), rfl, rfl, rfl, hk, ho⟩
                · exact Or.inr hp'
            case isFalse ho =>
              obtain ⟨M, C, P⟩ := ih
                { acc with calls := acc.calls ++
                    [{ srcText := l.linkText ++ " " ++ l.contextText
                       title := jsOrS (jsTrim l.titleText) (jsTrim l.linkText)
                       content := jsTrim (trunc500 (jsOrS l.contextText l.linkText))
                       url := fullUrlOf resolve l.href }] }
              refine ⟨fun c hc => M c (List.mem_append_left _ hc), ?_, ?_⟩
              · intro c hc
                rcases C c hc with hc' | hp
                · rcases List.mem_append.mp hc' with hc'' | hc''
                  · exact Or.inl hc''
                  · simp only [List.mem_singleton] at hc''
                    subst hc''
                    exact Or.inr hk
                · exact Or.inr hp
              · exact P

/-- C6: every post emitted by `parseHTMLContent` comes from an LLM call
whose title, content and URL it carries, whose guarding text passed the
primary keyword check and whose oracle verdict was `true`; and every LLM
call the pipeline ever makes is on an item whose text passed the primary
check — so the secondary verification is only applied to primary-passers
and can only reject, never admit a primary-negative. -/
theorem parseHTMLContent_primary_gate (page : DomPage) (resolve : String → String)
    (oracle : String → String → String → Bool) :
    (∀ c ∈ (parseHTMLContent page resolve oracle).calls,
      containsEInvoicingKeywords c.srcText = true) ∧
    (∀ p ∈ (parseHTMLContent page resolve oracle).posts,
      ∃ c ∈ (parseHTMLContent page resolve oracle).calls,
        p.title = c.title ∧ p.content = c.content ∧ p.url = c.url ∧
        containsEInvoicingKeywords c.srcText = true ∧
        oracle c.title c.content c.url = true) := by
  have hchain : ∀ (links : List DomLink) (elements : List DomElement) (acc : ParseAcc),
      (∀ c ∈ acc.calls, containsEInvoicingKeywords c.srcText = true) →
      (∀ p ∈ acc.posts, ∃ c ∈ acc.calls,
        p.title = c.title ∧ p.content = c.content ∧ p.url = c.url ∧
        containsEInvoicingKeywords c.srcText = true ∧
        oracle c.title c.content c.url = true) →
      (∀ c ∈ (parseLinksPass2 resolve oracle links
          (parseElements resolve oracle elements acc)).calls,
        containsEInvoicingKeywords c.srcText = true) ∧
      (∀ p ∈ (parseLinksPass2 resolve oracle links
          (parseElements resolve oracle elements acc)).posts,
        ∃ c ∈ (parseLinksPass2 resolve oracle links
            (parseElements resolve oracle elements acc)).calls,
          p.title = c.title ∧ p.content = c.content ∧ p.url = c.url ∧
          containsEInvoicingKeywords c.srcText = true ∧
          oracle c.title c.content c.url = true) := by
    intro links elements acc hac hap
    obtain ⟨M2, C2, P2⟩ := parseElements_spec resolve oracle elements acc
    obtain ⟨M3, C3, P3⟩ := parseLinksPass2_spec resolve oracle links
      (parseElements resolve oracle elements acc)
    have hc2 : ∀ c ∈ (parseElements resolve oracle elements acc).calls,
        containsEInvoicingKeywords c.srcText = true := by
      intro c hc
      rcases C2 c hc with hc' | hp
      · exact hac c hc'
      · exact hp
    have hp2 : ∀ p ∈ (parseElements resolve oracle elements acc).posts,
        ∃ c ∈ (parseElements resolve oracle elements acc).calls,
          p.title = c.title ∧ p.content = c.content ∧ p.url = c.url ∧
          containsEInvoicingKeywords c.srcText = true ∧
          oracle c.title c.content c.url = true := by
      intro p hp
      rcases P2 p hp with hp' | hp'
      · obtain ⟨c, hcmem, hprops⟩ := hap p hp'
        exact ⟨c, M2 c hcmem, hprops⟩
      · exact hp'
    constructor
    · intro c hc
      rcases C3 c hc with hc' | hp
      · exact hc2 c hc'
      · exact hp
    · intro p hp
      rcases P3 p hp with hp' | hp'
      · obtain ⟨c, hcmem, hprops⟩ := hp2 p hp'
        exact ⟨c, M3 c hcmem, hprops⟩
      · exact hp'
  simp only [parseHTMLContent]
  split
  · split
    case isTrue hlen =>
      obtain ⟨_, C1, P1⟩ := parseLinksPass1_spec resolve oracle page.links []
        { posts := [], calls := [] }
      constructor
      · intro c hc
        rcases C1 c hc with hc' | hp
        · cases hc'
        · exact hp
      · intro p hp
        rcases P1 p hp with hp' | hp'
        · cases hp'
        · exact hp'
    case isFalse hlen =>
      obtain ⟨_, C1, P1⟩ := parseLinksPass1_spec resolve oracle page.links []
        { posts := [], calls := [] }
      apply hchain
      · intro c hc
        rcases C1 c hc with hc' | hp
        · cases hc'
        · exact hp
      · intro p hp
        rcases P1 p hp with hp' | hp'
        · cases hp'
        · exact hp'
  · apply hchain
    · intro c hc
      cases hc
    · intro p hp
      cases hp

/-- Witness for C6 at a concrete input: a page with one keyword-bearing
element and an always-accepting oracle emits exactly that item, and the
theorem's guarantees hold for it. -/
theorem parseHTMLContent_primary_gate_witness :
    ∃ c ∈ (parseHTMLContent
        { bodyText := ""
          links := []
          elements := [{ titleText := "Peppol e-invoicing"
                         elementText := "peppol e-invoicing rollout"
                         linkHref := some "https://bosa.belgium.be/peppol"
                         contentText := "peppol e-invoicing news for everyone" }] }
        id (fun _ _ _ => true)).calls,
      ({ url := "https://bosa.belgium.be/peppol", title := "Peppol e-invoicing",
         content := "peppol e-invoicing news for everyone" } : ParsedPost).title = c.title ∧
      ({ url := "https://bosa.belgium.be/peppol", title := "Peppol e-invoicing",
         content := "peppol e-invoicing news for everyone" } : ParsedPost).content = c.content ∧
      ({ url := "https://bosa.belgium.be/peppol", title := "Peppol e-invoicing",
         content := "peppol e-invoicing news for everyone" } : ParsedPost).url = c.url ∧
      containsEInvoicingKeywords c.srcText = true ∧
      (fun (_ _ _ : String) => true) c.title c.content c.url = true :=
  (parseHTMLContent_primary_gate
    { bodyText := ""
      links := []
      elements := [{ titleText := "Peppol e-invoicing"
                     elementText := "peppol e-invoicing rollout"
                     linkHref := some "https://bosa.belgium.be/peppol"
                     contentText := "peppol e-invoicing news for everyone" }] }
    id (fun _ _ _ => true)).2
    { url := "https://bosa.belgium.be/peppol", title := "Peppol e-invoicing",
      content := "peppol e-invoicing news for everyone" } (by decide)

end BelgiumScraper
